import Mathlib

/-!
Silex `EditMenuController`: undo/redo, clipboard and sibling reordering.

A shallow embedding of `src/js/controller/edit-menu-controller.js`.

* DOM nodes are records carrying an identity; the child sequence of one parent
  is a `List Node`; `appendChild` / `insertBefore` follow the DOM standard.
* The controller fields (`undoHistory`, `redoHistory`, `clipboard`,
  `clipboardParent`) and the state held by its collaborators (serialized
  document, current page, selection) are fields of `Controller`; every call
  made to a collaborator is appended to `Controller.calls`.
* Pixel values are JavaScript numbers: `Binary64` holds a finite IEEE 754
  binary64 value exactly, and `Binary64.add` / `Binary64.sub` round the exact
  result to nearest, ties to even.
-/

namespace Silex

/-! ## Data model -/

/-- A DOM node. `id` is the node identity (what `===` compares), `nodeType`
is the DOM `nodeType` (1 for elements), `type` is what
`model.element.getType` answers for the node (`none` for JavaScript `null`). -/
structure Node where
  id : Nat
  nodeType : Nat
  type : Option String
deriving DecidableEq, Repr

/-- An entry of the undo or redo history: the object literal
`{html: html, page: page}` pushed by `undo` and `redo`. -/
structure Snapshot where
  html : String
  page : String
deriving DecidableEq, Repr

/-- A finite JavaScript number, that is an IEEE 754 binary64 value, held
exactly: every finite binary64 value is a whole multiple of `2 ^ (-1074)`,
the spacing of the subnormal numbers, and `units` is that multiple.
Infinities, NaN and the sign of zero are left out; pixel arithmetic does not
reach them. -/
structure Binary64 where
  units : Int
deriving DecidableEq, Repr

/-- The binary64 value of an integer; exact while the integer has at most 53
significant bits. -/
def Binary64.ofInt (n : Int) : Binary64 := ⟨n * ((2 ^ 1074 : Nat) : Int)⟩

/-- The binary64 value `m * 2 ^ e` of a mantissa `m` and an exponent
`e ≥ -1074`. -/
def Binary64.ofMantissa (m : Int) (e : Int) : Binary64 :=
  ⟨m * ((2 ^ (e + 1074).toNat : Nat) : Int)⟩

/-- How many low bits of `n` do not fit in the 53-bit significand: the number
of halvings that bring `n` below `2 ^ 53`. The bound `fuel` on the halvings
is never reached by a finite binary64 sum, which has fewer than 2100 bits. -/
def Binary64.shiftOf : Nat → Nat → Nat
  | 0, _ => 0
  | fuel + 1, n => if n < 2 ^ 53 then 0 else Binary64.shiftOf fuel (n / 2) + 1

/-- Round a magnitude, given in units of `2 ^ (-1074)`, to the nearest value
with a 53-bit significand, a tie going to the even significand. -/
def Binary64.roundNat (n : Nat) : Nat :=
  let shift := Binary64.shiftOf 2100 n
  let q := n / 2 ^ shift
  let r := n % 2 ^ shift
  if 2 * r > 2 ^ shift ∨ (2 * r = 2 ^ shift ∧ q % 2 = 1) then (q + 1) * 2 ^ shift
  else q * 2 ^ shift

/-- Round an exact value, given in units of `2 ^ (-1074)`, to binary64:
round to nearest, ties to even, the rounding of JavaScript arithmetic. -/
def Binary64.round (k : Int) : Binary64 :=
  if 0 ≤ k then ⟨(Binary64.roundNat k.natAbs : Int)⟩
  else ⟨-(Binary64.roundNat k.natAbs : Int)⟩

/-- JavaScript `a + b` on numbers: the exact sum, rounded. -/
def Binary64.add (a b : Binary64) : Binary64 := Binary64.round (a.units + b.units)

/-- JavaScript `a - b` on numbers: the exact difference, rounded. -/
def Binary64.sub (a b : Binary64) : Binary64 := Binary64.round (a.units - b.units)

/-- Result of `model.property.getBoundingBox`. -/
structure Box where
  left : Binary64
  top : Binary64
  width : Binary64
  height : Binary64
deriving DecidableEq, Repr

/-- Calls made by the controller to its collaborators and writes made to
inserted elements, in the order made. Queries answered by `Env` (the DOM and
the stage view) are not recorded. -/
inductive Call where
  | getHtml
  | getCurrentPage
  | setHtml (html : String)
  | setCurrentPage (page : String)
  | trackAction (action : String)
  | getSelection
  | setEditable (element : Node) (editable : Bool)
  | consoleError (element : Node)
  | undoCheckPoint
  | addElement (container : Node) (element : Node)
  | setStyleLeft (element : Node) (px : Binary64)
  | setStyleTop (element : Node) (px : Binary64)
  | doAddElement (element : Node)
  | setSelection (elements : List Node)
  | confirm (message : String)
  | removeElement (element : Node)
deriving DecidableEq, Repr

/-- The controller together with the state of the models it talks to.
JavaScript arrays are lists; `push` appends at the end and `pop` takes from
the end. -/
structure Controller where
  undoHistory : List Snapshot := []
  redoHistory : List Snapshot := []
  clipboard : List Node := []
  clipboardParent : Option Node := none
  html : String := ""
  page : String := ""
  selection : List Node := []
  nextId : Nat := 0
  calls : List Call := []
deriving DecidableEq, Repr

/-- Read-only answers of the document the controller works on. -/
structure Env where
  bodyElement : Node
  parentNode : Node → Option Node
  contains : Node → Node → Bool
  getVisibility : Node → Bool
  backgroundContainer : Option Node
  scrollLeft : Binary64
  scrollTop : Binary64
  getBoundingBox : List Node → Box

/-! ## Collaborators -/

/-- Record a collaborator call. -/
def Controller.log (s : Controller) (c : Call) : Controller :=
  { s with calls := s.calls ++ [c] }

/-- Modelled from the spec: `model.file.getHtml` (the file model is not in the
source); it answers the serialized document, the string last given to
`setHtml`. -/
def getHtml (s : Controller) : String × Controller :=
  (s.html, s.log Call.getHtml)

/-- Modelled from the spec: `model.page.getCurrentPage` (the page model is not
in the source); it answers the current page id. -/
def getCurrentPage (s : Controller) : String × Controller :=
  (s.page, s.log Call.getCurrentPage)

/-- Modelled from the spec: `model.file.setHtml(html, cb, flag)` (the file
model is not in the source); it replaces the serialized document and then
runs the completion callback. -/
def setHtml (s : Controller) (html : String) (cb : Controller → Controller) : Controller :=
  cb ({ s with html := html }.log (Call.setHtml html))

/-- Modelled from the spec: `model.page.setCurrentPage(page)` (the page model
is not in the source); it makes `page` the current page. -/
def setCurrentPage (s : Controller) (page : String) : Controller :=
  { s with page := page }.log (Call.setCurrentPage page)

/-- Modelled from the spec: `undoCheckPoint` of the base controller (not in
the source); it captures the current serialized document and page id, pushes
them on the undo stack and clears the redo stack. -/
def undoCheckPoint (s : Controller) : Controller :=
  { s with undoHistory := s.undoHistory ++ [Snapshot.mk s.html s.page],
           redoHistory := [] }.log Call.undoCheckPoint

/-- Modelled from the spec: `model.body.getSelection` (the body model is not in
the source); it answers the selection held by the selection store. -/
def getSelection (s : Controller) : List Node × Controller :=
  (s.selection, s.log Call.getSelection)

/-- Modelled from the spec: `model.body.setSelection` (the body model is not in
the source); it replaces the selection held by the selection store. -/
def setSelection (s : Controller) (elements : List Node) : Controller :=
  { s with selection := elements }.log (Call.setSelection elements)

/-- The DOM `cloneNode(true)`: a node with a fresh identity and the same
content. `nextId` is the supply of identities not yet in use. -/
def cloneNode (s : Controller) (element : Node) : Node × Controller :=
  ({ element with id := s.nextId }, { s with nextId := s.nextId + 1 })

/-! ## History: `undo` and `redo` -/

/-- `EditMenuController.prototype.undo`. -/
def undo (s : Controller) : Controller :=
  if s.undoHistory.length > 0 then
    let (html, s1) := getHtml s
    let (page, s2) := getCurrentPage s1
    let s3 := { s2 with redoHistory := s2.redoHistory ++ [Snapshot.mk html page] }
    match s3.undoHistory.getLast? with
    | none => s3
    | some prevState =>
      let s4 := { s3 with undoHistory := s3.undoHistory.dropLast }
      if html ≠ prevState.html then
        setHtml s4 prevState.html (fun t => setCurrentPage t prevState.page)
      else
        setCurrentPage s4 prevState.page
  else s

/-- `EditMenuController.prototype.redo`. -/
def redo (s : Controller) : Controller :=
  if s.redoHistory.length > 0 then
    let (html, s1) := getHtml s
    let (page, s2) := getCurrentPage s1
    let s3 := { s2 with undoHistory := s2.undoHistory ++ [Snapshot.mk html page] }
    match s3.redoHistory.getLast? with
    | none => s3
    | some prevState =>
      let s4 := { s3 with redoHistory := s3.redoHistory.dropLast }
      if html ≠ prevState.html then
        setHtml s4 prevState.html (fun t => setCurrentPage t prevState.page)
      else
        setCurrentPage s4 prevState.page
  else s

/-! ## Clipboard: `copySelection` and `pasteSelection` -/

/-- The body of the `forEach` of `copySelection`, for one selected element. -/
def copyElement (env : Env) (s : Controller) (element : Node) : Controller :=
  if env.bodyElement ≠ element then
    let s1 := s.log (Call.setEditable element false)
    let (clone, s2) := cloneNode s1 element
    let s3 := { s2 with clipboard := s2.clipboard ++ [clone] }
    let s4 := { s3 with clipboardParent := env.parentNode element }
    s4.log (Call.setEditable element true)
  else
    s.log (Call.consoleError element)

/-- `EditMenuController.prototype.copySelection`. -/
def copySelection (env : Env) (s : Controller) : Controller :=
  let s1 := s.log (Call.trackAction "copy")
  let (elements, s2) := getSelection s1
  if elements.length > 0 then
    let s3 := { s2 with clipboard := [] }
    elements.foldl (copyElement env) s3
  else s2

/-- JavaScript truthiness of an array value, as tested by
`if (this.clipboard)`: an array is an object, and every object is truthy, the
empty array included. -/
def truthy (_clipboard : List Node) : Bool := true

/-- The container chosen by `pasteSelection`: the original container, the
main background container or the stage. -/
def pasteContainer (env : Env) (s : Controller) : Node :=
  let fallback : Node :=
    match env.backgroundContainer with
    | some container => container
    | none => env.bodyElement
  match s.clipboardParent with
  | some clipboardParent =>
    if env.contains env.bodyElement clipboardParent && env.getVisibility clipboardParent then
      clipboardParent
    else fallback
  | none => fallback

/-- The body of the `forEach` of `pasteSelection`, for one clipboard entry;
the second component is the local array `selection`. -/
def pasteElement (env : Env) (container : Node) (offsetX offsetY : Binary64)
    (acc : Controller × List Node) (clipboardElement : Node) : Controller × List Node :=
  let (element, s1) := cloneNode acc.1 clipboardElement
  let s2 := s1.log (Call.addElement container element)
  let selection := acc.2 ++ [element]
  let bbElement := env.getBoundingBox [element]
  let s3 := s2.log (Call.setStyleLeft element (Binary64.add bbElement.left offsetX))
  let s4 := s3.log (Call.setStyleTop element (Binary64.add bbElement.top offsetY))
  (s4.log (Call.doAddElement element), selection)

/-- `EditMenuController.prototype.pasteSelection`. -/
def pasteSelection (env : Env) (s : Controller) : Controller :=
  let s1 := s.log (Call.trackAction "paste")
  if truthy s1.clipboard then
    let s2 := undoCheckPoint s1
    let container := pasteContainer env s2
    let bb := env.getBoundingBox s2.clipboard
    let offsetX := Binary64.sub (Binary64.add (Binary64.ofInt 100) env.scrollLeft) bb.left
    let offsetY := Binary64.sub (Binary64.add (Binary64.ofInt 100) env.scrollTop) bb.top
    let r := s2.clipboard.foldl (pasteElement env container offsetX offsetY) (s2, [])
    setSelection r.1 r.2
  else s1

/-- `EditMenuController.prototype.removeSelectedElements`. `accept` is the
answer of the user to the prompt of `Notification.confirm`, which the prompt
hands to the callback. -/
def removeSelectedElements (accept : Bool) (s : Controller) : Controller :=
  let (elements, s1) := getSelection s
  let s2 := s1.log (Call.confirm
    "I am about to <strong>delete the selected element(s)</strong>, are you sure?")
  if accept then
    let s3 := undoCheckPoint s2
    elements.foldl (fun t element => t.log (Call.removeElement element)) s3
  else s2

/-! ## Order engine -/

/-- The test `el.nodeType === 1 && this.model.element.getType(el) !== null`. -/
def isSilexElement (el : Node) : Bool :=
  el.nodeType == 1 && el.type != none

/-- The loop shared by `getPreviousElement` and `getNextElement`: walk the
nodes in the given order, remember the last Silex element seen, and answer it
when `element` is met; answer `null` when the walk ends. -/
def scanFor (element : Node) : List Node → Option Node → Option Node
  | [], _ => none
  | el :: rest, res =>
    if isSilexElement el then
      if el = element then res else scanFor element rest (some el)
    else scanFor element rest res

/-- `EditMenuController.prototype.getPreviousElement`: the walk goes from
index 0 upwards. -/
def getPreviousElement (childNodes : List Node) (element : Node) : Option Node :=
  scanFor element childNodes none

/-- `EditMenuController.prototype.getNextElement`: the walk goes from the last
index downwards. -/
def getNextElement (childNodes : List Node) (element : Node) : Option Node :=
  scanFor element childNodes.reverse none

/-- The loop of `indexOfElement`, started at index `idx`. -/
def indexOfElementFrom (element : Node) : List Node → Int → Int
  | [], _ => -1
  | el :: rest, idx => if el = element then idx else indexOfElementFrom element rest (idx + 1)

/-- `EditMenuController.prototype.indexOfElement`. -/
def indexOfElement (childNodes : List Node) (element : Node) : Int :=
  indexOfElementFrom element childNodes 0

/-- `elements.sort((a, b) => this.indexOfElement(a) - this.indexOfElement(b))`:
a stable sort by ascending raw child index. -/
def sortSelection (childNodes : List Node) (elements : List Node) : List Node :=
  elements.insertionSort (fun a b => indexOfElement childNodes a ≤ indexOfElement childNodes b)

/-- The DOM `parent.appendChild(node)` on the child sequence of `parent`: the
node is taken out of the sequence if it is in it, and put last. -/
def appendChild (childNodes : List Node) (node : Node) : List Node :=
  childNodes.erase node ++ [node]

/-- Put `node` immediately before the child `ref`. -/
def insertBeforeRef (node ref : Node) : List Node → List Node
  | [] => [node]
  | x :: xs => if x = ref then node :: x :: xs else x :: insertBeforeRef node ref xs

/-- The DOM `parent.insertBefore(node, child)` on the child sequence of
`parent`. A missing `child` (`null` or `undefined`) appends; a `child` that
is not a child of `parent` throws (`none`); when `child` is `node` itself the
reference becomes the next sibling of `node`, which leaves the sequence as it
is; otherwise `node` is taken out of the sequence and put before `child`. -/
def insertBefore (childNodes : List Node) (node : Node) (child : Option Node) :
    Option (List Node) :=
  match child with
  | none => some (appendChild childNodes node)
  | some ref =>
    if ref ∈ childNodes then
      if ref = node then some childNodes
      else some (insertBeforeRef node ref (childNodes.erase node))
    else none

/-- The body of the `forEach` of `moveUp`. -/
def moveUpStep (childNodes : List Node) (element : Node) : Option (List Node) :=
  match getNextElement childNodes element with
  | some next => insertBefore childNodes next (some element)
  | none => some (appendChild childNodes element)

/-- The body of the `forEach` of `moveDown`. -/
def moveDownStep (childNodes : List Node) (element : Node) : Option (List Node) :=
  match getPreviousElement childNodes element with
  | some prev => insertBefore childNodes element (some prev)
  | none => some childNodes

/-- The body of the `forEach` of `moveToTop`. -/
def moveToTopStep (childNodes : List Node) (element : Node) : Option (List Node) :=
  some (appendChild childNodes element)

/-- The body of the `forEach` of `moveToBottom`; `childNodes[0]` is
`undefined` on an empty sequence. -/
def moveToBottomStep (childNodes : List Node) (element : Node) : Option (List Node) :=
  insertBefore childNodes element childNodes.head?

/-- The common shape of the four reorder commands: undo checkpoint, read the
selection, sort it by raw child index, run `step` on each element in that
order against the child sequence as changed so far. `childNodes` is the child
sequence of the parent of the selected elements. Answers the controller and
the new child sequence, or `none` when a DOM call throws. -/
def reorder (step : List Node → Node → Option (List Node)) (s : Controller)
    (childNodes : List Node) : Option (Controller × List Node) :=
  let s1 := undoCheckPoint s
  let (elements, s2) := getSelection s1
  let sorted := sortSelection childNodes elements
  (sorted.foldlM step childNodes).map (fun c => (s2, c))

/-- `EditMenuController.prototype.moveUp`. -/
def moveUp (s : Controller) (childNodes : List Node) : Option (Controller × List Node) :=
  reorder moveUpStep s childNodes

/-- `EditMenuController.prototype.moveDown`. -/
def moveDown (s : Controller) (childNodes : List Node) : Option (Controller × List Node) :=
  reorder moveDownStep s childNodes

/-- `EditMenuController.prototype.moveToTop`. -/
def moveToTop (s : Controller) (childNodes : List Node) : Option (Controller × List Node) :=
  reorder moveToTopStep s childNodes

/-- `EditMenuController.prototype.moveToBottom`. -/
def moveToBottom (s : Controller) (childNodes : List Node) : Option (Controller × List Node) :=
  reorder moveToBottomStep s childNodes

/-! ## Closed forms used to state what the clipboard commands do -/

/-- The clones of the nodes of a list, made in order, the first clone taking
identity `n`. -/
def clonesFrom (n : Nat) : List Node → List Node
  | [] => []
  | e :: es => { e with id := n } :: clonesFrom (n + 1) es

/-- The record of a `forEach` of `pasteSelection` over a list of clipboard
entries, the first clone taking identity `n`; `boxOf entry clone` is the
bounding box taken for the clone of `entry`. -/
def pastedCalls (container : Node) (offsetX offsetY : Binary64) (boxOf : Node → Node → Box)
    (n : Nat) : List Node → List Call
  | [] => []
  | e :: es =>
    [Call.addElement container { e with id := n },
     Call.setStyleLeft { e with id := n }
       (Binary64.add (boxOf e { e with id := n }).left offsetX),
     Call.setStyleTop { e with id := n }
       (Binary64.add (boxOf e { e with id := n }).top offsetY),
     Call.doAddElement { e with id := n }] ++
      pastedCalls container offsetX offsetY boxOf (n + 1) es

/-- The container and the element of an `addElement` call; `none` for any
other call. -/
def Call.added : Call → Option (Node × Node)
  | Call.addElement container element => some (container, element)
  | _ => none

/-- The value of `offsetX` in `pasteSelection`:
`100 + doc.body.scrollLeft - bb.left`. -/
def pasteOffsetX (env : Env) (s : Controller) : Binary64 :=
  Binary64.sub (Binary64.add (Binary64.ofInt 100) env.scrollLeft)
    (env.getBoundingBox s.clipboard).left

/-- The value of `offsetY` in `pasteSelection`:
`100 + doc.body.scrollTop - bb.top`. -/
def pasteOffsetY (env : Env) (s : Controller) : Binary64 :=
  Binary64.sub (Binary64.add (Binary64.ofInt 100) env.scrollTop)
    (env.getBoundingBox s.clipboard).top

/-- The left that `pasteSelection` sets on a clone whose bounding box is that
of the clipboard entry `e`: `bbElement.left + offsetX`. -/
def pastedLeft (env : Env) (s : Controller) (e : Node) : Binary64 :=
  Binary64.add (env.getBoundingBox [e]).left (pasteOffsetX env s)

/-- The top that `pasteSelection` sets on a clone whose bounding box is that
of the clipboard entry `e`: `bbElement.top + offsetY`. -/
def pastedTop (env : Env) (s : Controller) (e : Node) : Binary64 :=
  Binary64.add (env.getBoundingBox [e]).top (pasteOffsetY env s)

/-- The record of a `forEach` of `copySelection` over a list of selected
elements. -/
def copiedCalls (body : Node) : List Node → List Call
  | [] => []
  | e :: es =>
    (if body ≠ e then [Call.setEditable e false, Call.setEditable e true]
      else [Call.consoleError e]) ++ copiedCalls body es

/-- The editable state a record of calls leaves `element` in, started from
`init`: the value given by the last `setEditable` for `element`. -/
def editableFrom (init : Option Bool) (calls : List Call) (element : Node) : Option Bool :=
  calls.foldl
    (fun acc c =>
      match c with
      | Call.setEditable el b => if el = element then some b else acc
      | _ => acc)
    init

/-- The editable state a record of calls leaves `element` in; `none` when the
record never sets it. -/
def editableAfter (calls : List Call) (element : Node) : Option Bool :=
  editableFrom none calls element

/-! ## Nodes and states used in the examples -/

/-- The body (stage) element of the example document. -/
def bodyNode : Node := { id := 0, nodeType := 1, type := none }

/-- Left edge of an element in the example layout: images at 50, all else at
30. -/
def layoutLeft (e : Node) : Int := if e.type = some "image" then 50 else 30

/-- Top edge of an element in the example layout: images at 20, all else at
40. -/
def layoutTop (e : Node) : Int := if e.type = some "image" then 20 else 40

/-- Combined bounding box in the example layout, in whole pixels, as left,
top, width and height, every element being 10 wide and 10 high. -/
def layoutPixels : List Node → Int × Int × Int × Int
  | [] => (0, 0, 0, 0)
  | [e] => (layoutLeft e, layoutTop e, 10, 10)
  | e :: es =>
    let b := layoutPixels es
    let left := min (layoutLeft e) b.1
    let top := min (layoutTop e) b.2.1
    (left, top, max (layoutLeft e + 10) (b.1 + b.2.2.1) - left,
      max (layoutTop e + 10) (b.2.1 + b.2.2.2) - top)

/-- Combined bounding box in the example layout. -/
def layoutBox (l : List Node) : Box :=
  Box.mk (Binary64.ofInt (layoutPixels l).1) (Binary64.ofInt (layoutPixels l).2.1)
    (Binary64.ofInt (layoutPixels l).2.2.1) (Binary64.ofInt (layoutPixels l).2.2.2)

/-- A container element of the example document. -/
def containerNode : Node := { id := 3, nodeType := 1, type := some "container" }

/-- An example document scrolled by (5, 7), with the example layout, in which
the container is attached and visible. -/
def layoutEnv : Env :=
  { bodyElement := bodyNode, parentNode := fun _ => some containerNode,
    contains := fun _ _ => true, getVisibility := fun _ => true,
    backgroundContainer := none, scrollLeft := Binary64.ofInt 5,
    scrollTop := Binary64.ofInt 7,
    getBoundingBox := layoutBox }

/-- A state whose clipboard holds a copied text element and a copied image,
copied from the container. -/
def twoCopied : Controller :=
  { clipboard := [{ id := 7, nodeType := 1, type := some "text" },
                  { id := 8, nodeType := 1, type := some "image" }],
    clipboardParent := some containerNode,
    selection := [{ id := 5, nodeType := 1, type := some "text" }], nextId := 9 }

/-- Left edge of an element in a layout with fractional positions: images at
0.3, all else at 0.1 (the binary64 values nearest to these). -/
def fractionLeft (e : Node) : Binary64 :=
  if e.type = some "image" then Binary64.ofMantissa 5404319552844595 (-54)
  else Binary64.ofMantissa 7205759403792794 (-56)

/-- Combined bounding box in the layout with fractional positions: every
element has its top at 1624.24 and is 10 wide and 10 high; the combined box
of several elements starts at the least left, 0.1. -/
def fractionBox : List Node → Box
  | [] => Box.mk (Binary64.ofInt 0) (Binary64.ofInt 0) (Binary64.ofInt 0) (Binary64.ofInt 0)
  | [e] =>
    Box.mk (fractionLeft e) (Binary64.ofMantissa 7143483065195561 (-42))
      (Binary64.ofInt 10) (Binary64.ofInt 10)
  | _ =>
    Box.mk (Binary64.ofMantissa 7205759403792794 (-56))
      (Binary64.ofMantissa 7143483065195561 (-42))
      (Binary64.ofMantissa 5742089524897383 (-49)) (Binary64.ofInt 10)

/-- An example document with the fractional layout, scrolled down by 76.34. -/
def fractionEnv : Env :=
  { bodyElement := bodyNode, parentNode := fun _ => some containerNode,
    contains := fun _ _ => true, getVisibility := fun _ => true,
    backgroundContainer := none, scrollLeft := Binary64.ofInt 0,
    scrollTop := Binary64.ofMantissa 5371949930522870 (-46),
    getBoundingBox := fractionBox }

/-- A state with two elements selected, the body element between them, and an
older clipboard. -/
def twoSelected : Controller :=
  { clipboard := [{ id := 7, nodeType := 1, type := some "text" }],
    clipboardParent := some containerNode,
    selection := [{ id := 5, nodeType := 1, type := some "text" }, bodyNode,
                  { id := 6, nodeType := 1, type := some "image" }],
    nextId := 9 }

/-- A state with nothing selected and a clipboard from an earlier copy. -/
def nothingSelected : Controller :=
  { clipboard := [{ id := 7, nodeType := 1, type := some "text" }],
    clipboardParent := some containerNode, nextId := 9 }

/-- A state with one checkpoint on the undo stack. -/
def oneCheckpoint : Controller :=
  { undoHistory := [Snapshot.mk "<p>a</p>" "page-1"], html := "<p>b</p>", page := "page-2" }

/-- An example document: every node is a child of the body, nothing is hidden,
there is no background container, nothing is scrolled. -/
def stageEnv : Env :=
  { bodyElement := bodyNode, parentNode := fun _ => some bodyNode,
    contains := fun _ _ => true, getVisibility := fun _ => true,
    backgroundContainer := none, scrollLeft := Binary64.ofInt 0,
    scrollTop := Binary64.ofInt 0,
    getBoundingBox := fun _ =>
      Box.mk (Binary64.ofInt 0) (Binary64.ofInt 0) (Binary64.ofInt 0) (Binary64.ofInt 0) }

/-- A state whose clipboard holds one copied element and whose selection is
the body element alone. -/
def bodySelected : Controller :=
  { clipboard := [{ id := 7, nodeType := 1, type := some "text" }],
    clipboardParent := some { id := 3, nodeType := 1, type := some "container" },
    selection := [bodyNode], nextId := 8 }

/-- A state with the initial, empty clipboard and one selected element. -/
def emptyClipboard : Controller :=
  { html := "<p>b</p>", page := "page-2",
    selection := [{ id := 5, nodeType := 1, type := some "text" }], nextId := 8 }

/-- A state with empty undo and redo stacks. -/
def noHistory : Controller :=
  { html := "<p>b</p>", page := "page-2", calls := [Call.getSelection] }

/-- A text element with identity `i`. -/
def textNode (i : Nat) : Node := { id := i, nodeType := 1, type := some "text" }

/-- A node that is no Silex element (a DOM text node) with identity `i`. -/
def plainNode (i : Nat) : Node := { id := i, nodeType := 3, type := none }

end Silex

namespace Silex

/-! ## History -/

theorem undo_of_concat (s : Controller) (l : List Snapshot) (x : Snapshot)
    (h : s.undoHistory = l ++ [x]) :
    undo s =
      if s.html ≠ x.html then
        { s with undoHistory := l, redoHistory := s.redoHistory ++ [Snapshot.mk s.html s.page],
                 html := x.html, page := x.page,
                 calls := s.calls ++ [Call.getHtml, Call.getCurrentPage, Call.setHtml x.html,
                   Call.setCurrentPage x.page] }
      else
        { s with undoHistory := l, redoHistory := s.redoHistory ++ [Snapshot.mk s.html s.page],
                 page := x.page,
                 calls := s.calls ++ [Call.getHtml, Call.getCurrentPage,
                   Call.setCurrentPage x.page] } := by
  unfold undo
  simp [h, getHtml, getCurrentPage, setHtml, setCurrentPage, Controller.log]

theorem redo_of_concat (s : Controller) (l : List Snapshot) (x : Snapshot)
    (h : s.redoHistory = l ++ [x]) :
    redo s =
      if s.html ≠ x.html then
        { s with redoHistory := l, undoHistory := s.undoHistory ++ [Snapshot.mk s.html s.page],
                 html := x.html, page := x.page,
                 calls := s.calls ++ [Call.getHtml, Call.getCurrentPage, Call.setHtml x.html,
                   Call.setCurrentPage x.page] }
      else
        { s with redoHistory := l, undoHistory := s.undoHistory ++ [Snapshot.mk s.html s.page],
                 page := x.page,
                 calls := s.calls ++ [Call.getHtml, Call.getCurrentPage,
                   Call.setCurrentPage x.page] } := by
  unfold redo
  simp [h, getHtml, getCurrentPage, setHtml, setCurrentPage, Controller.log]

/-- C1: for every state with a non-empty undo stack, `undo()` followed at once
by `redo()` leaves the serialized document and the current page id as they
were before the undo (and both history stacks too), the document model
answering from `getHtml` the string last given to `setHtml` and running the
completion callback. -/
theorem undo_redo_restores (s : Controller) (h : s.undoHistory ≠ []) :
    (redo (undo s)).html = s.html ∧ (redo (undo s)).page = s.page ∧
      (redo (undo s)).undoHistory = s.undoHistory ∧
      (redo (undo s)).redoHistory = s.redoHistory := by
  obtain ⟨l, x, hx⟩ : ∃ l x, s.undoHistory = l ++ [x] :=
    ⟨s.undoHistory.dropLast, s.undoHistory.getLast h, (List.dropLast_append_getLast h).symm⟩
  rw [undo_of_concat s l x hx]
  by_cases hd : s.html = x.html
  · rw [if_neg (by simpa using hd)]
    rw [redo_of_concat _ s.redoHistory (Snapshot.mk s.html s.page) rfl]
    simp [hx, hd]
  · rw [if_pos hd]
    rw [redo_of_concat _ s.redoHistory (Snapshot.mk s.html s.page) rfl]
    have hd' : ¬ x.html = s.html := fun e => hd e.symm
    simp [hx, hd']

/-- Witness of C1 on a state with one checkpoint. -/
theorem undo_redo_restores_witness :
    oneCheckpoint.undoHistory ≠ [] ∧
      (redo (undo oneCheckpoint)).html = "<p>b</p>" ∧
      (redo (undo oneCheckpoint)).page = "page-2" ∧
      (redo (undo oneCheckpoint)).undoHistory = [Snapshot.mk "<p>a</p>" "page-1"] ∧
      (redo (undo oneCheckpoint)).redoHistory = [] :=
  ⟨by simp [oneCheckpoint], undo_redo_restores oneCheckpoint (by simp [oneCheckpoint])⟩

/-- C2: `undo()` with an empty undo stack and `redo()` with an empty redo
stack return the state as it was: both stacks, the document, the current page
and the record of collaborator calls are unchanged, so no collaborator is
called. -/
theorem undo_redo_empty_noop (s : Controller) :
    (s.undoHistory = [] → undo s = s) ∧ (s.redoHistory = [] → redo s = s) := by
  constructor
  · intro h
    simp [undo, h]
  · intro h
    simp [redo, h]

/-- Witness of C2 on a state with empty stacks. -/
theorem undo_redo_empty_noop_witness :
    (noHistory.undoHistory = [] ∧ undo noHistory = noHistory) ∧
      (noHistory.redoHistory = [] ∧ redo noHistory = noHistory) :=
  ⟨⟨rfl, (undo_redo_empty_noop noHistory).1 rfl⟩, ⟨rfl, (undo_redo_empty_noop noHistory).2 rfl⟩⟩

/-! ## Clipboard -/

/-- C5 (as stated) fails: with a non-empty clipboard and the body element as
the sole selection, `copySelection()` empties the clipboard instead of leaving
it equal to its previous value. -/
theorem copy_body_only_counterexample :
    bodySelected.selection = [stageEnv.bodyElement] ∧
      (copySelection stageEnv bodySelected).clipboard = [] ∧
      (copySelection stageEnv bodySelected).clipboard ≠ bodySelected.clipboard := by
  decide

/-- C5 (amended): when the selection is the body element alone,
`copySelection()` resets the clipboard to the empty list whatever it held,
leaves `clipboardParent` as it was, and reports one error, for that element. -/
theorem copy_body_only (env : Env) (s : Controller) (h : s.selection = [env.bodyElement]) :
    (copySelection env s).clipboard = [] ∧
      (copySelection env s).clipboardParent = s.clipboardParent ∧
      (copySelection env s).calls =
        s.calls ++ [Call.trackAction "copy", Call.getSelection,
          Call.consoleError env.bodyElement] := by
  simp [copySelection, getSelection, Controller.log, h, copyElement]

/-- Witness of C5 (amended) on the example state. -/
theorem copy_body_only_witness :
    bodySelected.selection = [stageEnv.bodyElement] ∧
      (copySelection stageEnv bodySelected).clipboard = [] ∧
      (copySelection stageEnv bodySelected).clipboardParent = bodySelected.clipboardParent ∧
      (copySelection stageEnv bodySelected).calls =
        bodySelected.calls ++ [Call.trackAction "copy", Call.getSelection,
          Call.consoleError stageEnv.bodyElement] :=
  ⟨rfl, copy_body_only stageEnv bodySelected rfl⟩

/-- C6: with the empty clipboard, `pasteSelection()` is not a no-op: the guard
`if (this.clipboard)` lets the empty array through, an undo checkpoint is
taken and the selection is replaced by the empty selection; no element is
added. -/
theorem paste_empty_clipboard_not_noop :
    emptyClipboard.clipboard = [] ∧
      (pasteSelection stageEnv emptyClipboard).calls =
        [Call.trackAction "paste", Call.undoCheckPoint, Call.setSelection []] ∧
      (pasteSelection stageEnv emptyClipboard).undoHistory = [Snapshot.mk "<p>b</p>" "page-2"] ∧
      emptyClipboard.selection = [{ id := 5, nodeType := 1, type := some "text" }] ∧
      (pasteSelection stageEnv emptyClipboard).selection = [] := by
  decide

/-! ## Order engine: the DOM calls on a child sequence -/

theorem filter_erase_of_false (P : Node → Bool) (e : Node) (hP : P e = false) (c : List Node) :
    (c.erase e).filter P = c.filter P := by
  induction c with
  | nil => rfl
  | cons x xs ih =>
    by_cases hx : x = e
    · subst hx
      simp [hP]
    · have hne : ¬ (x == e) = true := by simpa using hx
      rw [List.erase_cons_tail hne]
      simp [List.filter_cons, ih]

theorem filter_insertBeforeRef_of_false (P : Node → Bool) (node ref : Node)
    (hP : P node = false) (c : List Node) :
    (insertBeforeRef node ref c).filter P = c.filter P := by
  induction c with
  | nil => simp [insertBeforeRef, hP]
  | cons x xs ih =>
    by_cases hx : x = ref
    · simp [insertBeforeRef, hx, hP]
    · simp [insertBeforeRef, hx, List.filter_cons, ih]

theorem insertBeforeRef_append (node ref : Node) (l r : List Node) (h : ref ∉ l) :
    insertBeforeRef node ref (l ++ ref :: r) = l ++ node :: ref :: r := by
  induction l with
  | nil => simp [insertBeforeRef]
  | cons x xs ih =>
    have hx : x ≠ ref := fun e => h (by simp [e])
    have hxs : ref ∉ xs := fun e => h (by simp [e])
    simp [insertBeforeRef, hx, ih hxs]

theorem erase_middle (x : Node) (l r : List Node) (h : x ∉ l) :
    (l ++ x :: r).erase x = l ++ r := by
  rw [List.erase_append_right _ h]
  simp

theorem filter_appendChild_of_false (P : Node → Bool) (e : Node) (hP : P e = false)
    (c : List Node) : (appendChild c e).filter P = c.filter P := by
  simp [appendChild, filter_erase_of_false P e hP, hP]

theorem insertBefore_filter (P : Node → Bool) (e : Node) (hP : P e = false)
    (c : List Node) (child : Option Node) (hc : ∀ x, child = some x → x ∈ c) :
    ∃ c', insertBefore c e child = some c' ∧ c'.filter P = c.filter P := by
  cases child with
  | none => exact ⟨_, rfl, filter_appendChild_of_false P e hP c⟩
  | some ref =>
    have hmem : ref ∈ c := hc ref rfl
    by_cases hre : ref = e
    · exact ⟨c, by simp [insertBefore, hre ▸ hmem, hre], rfl⟩
    · refine ⟨insertBeforeRef e ref (c.erase e), by simp [insertBefore, hmem, hre], ?_⟩
      rw [filter_insertBeforeRef_of_false P e ref hP, filter_erase_of_false P e hP]

/-! ## Order engine: the walk of `getPreviousElement` and `getNextElement` -/

theorem scanFor_skip (e : Node) (m rest : List Node) (res : Option Node)
    (hm : ∀ x ∈ m, isSilexElement x = false) :
    scanFor e (m ++ rest) res = scanFor e rest res := by
  induction m with
  | nil => rfl
  | cons x xs ih =>
    have hx : isSilexElement x = false := hm x (by simp)
    have hxs : ∀ y ∈ xs, isSilexElement y = false := fun y hy => hm y (by simp [hy])
    simp [scanFor, hx, ih hxs]

theorem scanFor_hit (e : Node) (rest : List Node) (res : Option Node)
    (he : isSilexElement e = true) : scanFor e (e :: rest) res = res := by
  simp [scanFor, he]

theorem scanFor_pass (e p : Node) (rest : List Node) (res : Option Node)
    (hp : isSilexElement p = true) (hne : p ≠ e) :
    scanFor e (p :: rest) res = scanFor e rest (some p) := by
  simp [scanFor, hp, hne]

theorem scanFor_before (e : Node) (l rest : List Node) (res : Option Node) (h : e ∉ l) :
    ∃ res', scanFor e (l ++ rest) res = scanFor e rest res' := by
  induction l generalizing res with
  | nil => exact ⟨res, rfl⟩
  | cons x xs ih =>
    have hx : x ≠ e := fun c => h (by simp [c])
    have hxs : e ∉ xs := fun c => h (by simp [c])
    by_cases hs : isSilexElement x = true
    · obtain ⟨res', hres⟩ := ih (some x) hxs
      exact ⟨res', by simp [scanFor, hs, hx, hres]⟩
    · obtain ⟨res', hres⟩ := ih res hxs
      exact ⟨res', by simp [scanFor, hs, hres]⟩

/-- The walk answers `p` when, in walk order, `p` is a Silex element, only
nodes that are no Silex elements lie between `p` and `element`, and
`element` is a Silex element not met before. -/
theorem scanFor_found (e p : Node) (l m r : List Node) (res : Option Node)
    (hl : e ∉ l) (hpe : p ≠ e) (hp : isSilexElement p = true) (he : isSilexElement e = true)
    (hm : ∀ x ∈ m, isSilexElement x = false) :
    scanFor e (l ++ p :: (m ++ e :: r)) res = some p := by
  obtain ⟨res', hres⟩ := scanFor_before e l (p :: (m ++ e :: r)) res hl
  rw [hres, scanFor_pass e p _ _ hp hpe, scanFor_skip e m _ _ hm, scanFor_hit e r _ he]

/-- The walk started with `null` answers `null` when only nodes that are no
Silex elements precede `element`. -/
theorem scanFor_first (e : Node) (l r : List Node)
    (he : isSilexElement e = true) (hl : ∀ x ∈ l, isSilexElement x = false) :
    scanFor e (l ++ e :: r) none = none := by
  rw [scanFor_skip e l _ _ hl, scanFor_hit e r _ he]

/-- What an answer `some p` of the walk tells about the nodes walked. -/
theorem scanFor_eq_some (e p : Node) (c : List Node) (res : Option Node)
    (h : scanFor e c res = some p) :
    isSilexElement e = true ∧
      ((res = some p ∧ ∃ l r, c = l ++ e :: r ∧ ∀ x ∈ l, isSilexElement x = false) ∨
        (∃ l m r, c = l ++ p :: (m ++ e :: r) ∧ isSilexElement p = true ∧ p ≠ e ∧
          ∀ x ∈ m, isSilexElement x = false)) := by
  induction c generalizing res with
  | nil => simp [scanFor] at h
  | cons el rest ih =>
    by_cases hs : isSilexElement el = true
    · by_cases hel : el = e
      · subst hel
        rw [scanFor_hit el rest res hs] at h
        exact ⟨hs, Or.inl ⟨h, [], rest, rfl, by simp⟩⟩
      · rw [scanFor_pass e el rest res hs hel] at h
        obtain ⟨he, hcase⟩ := ih (some el) h
        refine ⟨he, Or.inr ?_⟩
        rcases hcase with ⟨hres, l, r, hc, hl⟩ | ⟨l, m, r, hc, hp, hpe, hm⟩
        · have hpel : el = p := by simpa using hres
          subst hpel
          exact ⟨[], l, r, by simp [hc], hs, hel, hl⟩
        · exact ⟨el :: l, m, r, by simp [hc], hp, hpe, hm⟩
    · have hs' : isSilexElement el = false := by simpa using hs
      have h' : scanFor e rest res = some p := by simpa [scanFor, hs'] using h
      obtain ⟨he, hcase⟩ := ih res h'
      refine ⟨he, ?_⟩
      rcases hcase with ⟨hres, l, r, hc, hl⟩ | ⟨l, m, r, hc, hp, hpe, hm⟩
      · refine Or.inl ⟨hres, el :: l, r, by simp [hc], ?_⟩
        intro x hx
        rcases List.mem_cons.1 hx with hx | hx
        · rw [hx]; exact hs'
        · exact hl x hx
      · exact Or.inr ⟨el :: l, m, r, by simp [hc], hp, hpe, hm⟩

/-! ## Order engine: one step on one element -/

theorem nodup_two (e n : Node) (l m r : List Node) (h : (l ++ e :: (m ++ n :: r)).Nodup) :
    e ∉ l ∧ e ∉ m ∧ e ∉ r ∧ n ∉ l ∧ n ∉ m ∧ n ∉ r ∧ e ≠ n := by
  rw [List.nodup_append] at h
  obtain ⟨_, h2, h3⟩ := h
  rw [List.nodup_cons, List.nodup_append] at h2
  obtain ⟨h4, _, h5, h6⟩ := h2
  rw [List.nodup_cons] at h5
  simp only [List.mem_append, List.mem_cons, not_or] at h4
  exact ⟨fun c => h3 c (by simp), h4.1, h4.2.2, fun c => h3 c (by simp),
    fun c => h6 c (by simp), h5.1, h4.2.1⟩

theorem nodup_one (e : Node) (l r : List Node) (h : (l ++ e :: r).Nodup) :
    e ∉ l ∧ e ∉ r := by
  rw [List.nodup_append] at h
  obtain ⟨_, h2, h3⟩ := h
  exact ⟨fun c => h3 c (by simp), (List.nodup_cons.1 h2).1⟩

theorem getNextElement_found (e n : Node) (l m r : List Node)
    (hnd : (l ++ e :: (m ++ n :: r)).Nodup)
    (he : isSilexElement e = true) (hn : isSilexElement n = true)
    (hm : ∀ x ∈ m, isSilexElement x = false) :
    getNextElement (l ++ e :: (m ++ n :: r)) e = some n := by
  have hshape : (l ++ e :: (m ++ n :: r)).reverse =
      r.reverse ++ n :: (m.reverse ++ e :: l.reverse) := by simp
  obtain ⟨_, _, her, _, _, _, hen⟩ := nodup_two e n l m r hnd
  unfold getNextElement
  rw [hshape]
  exact scanFor_found e n r.reverse m.reverse l.reverse none
    (fun h => her (List.mem_reverse.1 h)) (fun h => hen h.symm) hn he
    (fun x hx => hm x (List.mem_reverse.1 hx))

theorem getNextElement_last (e : Node) (l r : List Node)
    (he : isSilexElement e = true) (hr : ∀ x ∈ r, isSilexElement x = false) :
    getNextElement (l ++ e :: r) e = none := by
  have hshape : (l ++ e :: r).reverse = r.reverse ++ e :: l.reverse := by simp
  unfold getNextElement
  rw [hshape]
  exact scanFor_first e r.reverse l.reverse he (fun x hx => hr x (List.mem_reverse.1 hx))

theorem getPreviousElement_found (e p : Node) (l m r : List Node)
    (hnd : (l ++ p :: (m ++ e :: r)).Nodup)
    (he : isSilexElement e = true) (hp : isSilexElement p = true)
    (hm : ∀ x ∈ m, isSilexElement x = false) :
    getPreviousElement (l ++ p :: (m ++ e :: r)) e = some p := by
  obtain ⟨_, _, _, hel, _, _, hpe⟩ := nodup_two p e l m r hnd
  exact scanFor_found e p l m r none hel hpe hp he hm

theorem getPreviousElement_first (e : Node) (l r : List Node)
    (he : isSilexElement e = true) (hl : ∀ x ∈ l, isSilexElement x = false) :
    getPreviousElement (l ++ e :: r) e = none :=
  scanFor_first e l r he hl

/-- Moving `n` before `e` when `n` comes after `e`. -/
theorem insertBefore_later (e n : Node) (l m r : List Node)
    (hnd : (l ++ e :: (m ++ n :: r)).Nodup) :
    insertBefore (l ++ e :: (m ++ n :: r)) n (some e) = some (l ++ n :: e :: (m ++ r)) := by
  obtain ⟨hel, _, _, hnl, hnm, _, hen⟩ := nodup_two e n l m r hnd
  have herase : (l ++ e :: (m ++ n :: r)).erase n = l ++ e :: (m ++ r) := by
    have h := erase_middle n (l ++ e :: m) r (by simp [hnl, hnm, Ne.symm hen])
    simpa using h
  simp only [insertBefore]
  rw [if_pos (by simp), if_neg hen, herase, insertBeforeRef_append n e l (m ++ r) hel]

/-- Moving `e` before `p` when `p` comes before `e`. -/
theorem insertBefore_earlier (e p : Node) (l m r : List Node)
    (hnd : (l ++ p :: (m ++ e :: r)).Nodup) :
    insertBefore (l ++ p :: (m ++ e :: r)) e (some p) = some (l ++ e :: p :: (m ++ r)) := by
  obtain ⟨hpl, _, _, hel, hem, _, hpe⟩ := nodup_two p e l m r hnd
  have herase : (l ++ p :: (m ++ e :: r)).erase e = l ++ p :: (m ++ r) := by
    have h := erase_middle e (l ++ p :: m) r (by simp [hel, hem, Ne.symm hpe])
    simpa using h
  simp only [insertBefore]
  rw [if_pos (by simp), if_neg hpe, herase, insertBeforeRef_append e p l (m ++ r) hpl]

theorem appendChild_middle (e : Node) (l r : List Node) (hnd : (l ++ e :: r).Nodup) :
    appendChild (l ++ e :: r) e = l ++ r ++ [e] := by
  unfold appendChild
  rw [erase_middle e l r (nodup_one e l r hnd).1]

theorem reorder_snd (step : List Node → Node → Option (List Node)) (s : Controller)
    (c : List Node) :
    (reorder step s c).map Prod.snd = (sortSelection c s.selection).foldlM step c := by
  simp [reorder, getSelection, undoCheckPoint, Controller.log, Option.map_map, Function.comp_def]

theorem reorder_single (step : List Node → Node → Option (List Node)) (s : Controller)
    (c : List Node) (e : Node) (hsel : s.selection = [e]) :
    (reorder step s c).map Prod.snd = step c e := by
  rw [reorder_snd, hsel]
  simp [sortSelection]

/-! ## Order engine: a selection of one element -/

/-- C8: with the single selection `e`, a Silex element whose next Silex
sibling is `n` (only nodes that are no Silex elements lie between them),
`moveUp()` turns `l ++ e :: m ++ n :: r` into `l ++ n :: e :: m ++ r`: `n`,
which came after `e`, now comes immediately before it, and the children other
than `e` and `n` keep their order. -/
theorem moveUp_single_next (s : Controller) (e n : Node) (l m r : List Node)
    (hsel : s.selection = [e])
    (hnd : (l ++ e :: (m ++ n :: r)).Nodup)
    (he : isSilexElement e = true) (hn : isSilexElement n = true)
    (hm : ∀ x ∈ m, isSilexElement x = false) :
    getNextElement (l ++ e :: (m ++ n :: r)) e = some n ∧
      (moveUp s (l ++ e :: (m ++ n :: r))).map Prod.snd = some (l ++ n :: e :: (m ++ r)) ∧
      (l ++ n :: e :: (m ++ r)).filter (fun x => decide (x ≠ e ∧ x ≠ n)) =
        (l ++ e :: (m ++ n :: r)).filter (fun x => decide (x ≠ e ∧ x ≠ n)) := by
  have hnext := getNextElement_found e n l m r hnd he hn hm
  refine ⟨hnext, ?_, ?_⟩
  · unfold moveUp
    rw [reorder_single moveUpStep s _ e hsel]
    simp only [moveUpStep, hnext]
    exact insertBefore_later e n l m r hnd
  · simp [List.filter_append, List.filter_cons]

/-- Witness of C8: `e`, a text node, `n` among five children. -/
theorem moveUp_single_next_witness :
    getNextElement [textNode 0, textNode 1, plainNode 2, textNode 3, textNode 4] (textNode 1) =
        some (textNode 3) ∧
      (moveUp { selection := [textNode 1] }
          [textNode 0, textNode 1, plainNode 2, textNode 3, textNode 4]).map Prod.snd =
        some [textNode 0, textNode 3, textNode 1, plainNode 2, textNode 4] ∧
      [textNode 0, textNode 3, textNode 1, plainNode 2, textNode 4].filter
          (fun x => decide (x ≠ textNode 1 ∧ x ≠ textNode 3)) =
        [textNode 0, textNode 1, plainNode 2, textNode 3, textNode 4].filter
          (fun x => decide (x ≠ textNode 1 ∧ x ≠ textNode 3)) :=
  moveUp_single_next { selection := [textNode 1] } (textNode 1) (textNode 3)
    [textNode 0] [plainNode 2] [textNode 4] rfl (by decide) (by decide) (by decide) (by decide)

/-- C9 (as stated) fails: the frontmost Silex element followed by a node that
is no Silex element is moved behind that node by `moveUp()`. -/
theorem moveUp_frontmost_counterexample :
    isSilexElement (textNode 0) = true ∧
      getNextElement [textNode 0, plainNode 1] (textNode 0) = none ∧
      (moveUp { selection := [textNode 0] } [textNode 0, plainNode 1]).map Prod.snd =
        some [plainNode 1, textNode 0] ∧
      (moveUp { selection := [textNode 0] } [textNode 0, plainNode 1]).map Prod.snd ≠
        some [textNode 0, plainNode 1] := by
  decide

/-- C9 (amended): with the single selection `e`, a Silex element followed only
by nodes that are no Silex elements, `moveUp()` appends `e` as the last child:
`l ++ e :: r` becomes `l ++ r ++ [e]`. The sequence of Silex elements is
unchanged, and the child sequence itself is unchanged exactly when `e` is
already the last child. -/
theorem moveUp_frontmost (s : Controller) (e : Node) (l r : List Node)
    (hsel : s.selection = [e]) (hnd : (l ++ e :: r).Nodup)
    (he : isSilexElement e = true) (hr : ∀ x ∈ r, isSilexElement x = false) :
    (moveUp s (l ++ e :: r)).map Prod.snd = some (l ++ r ++ [e]) ∧
      (l ++ r ++ [e]).filter isSilexElement = (l ++ e :: r).filter isSilexElement ∧
      (l ++ r ++ [e] = l ++ e :: r ↔ r = []) := by
  refine ⟨?_, ?_, ?_⟩
  · unfold moveUp
    rw [reorder_single moveUpStep s _ e hsel]
    simp only [moveUpStep, getNextElement_last e l r he hr]
    rw [appendChild_middle e l r hnd]
  · have hfr : r.filter isSilexElement = [] := by
      rw [List.filter_eq_nil_iff]
      intro x hx
      simp [hr x hx]
    simp [List.filter_append, List.filter_cons, hfr, he]
  · constructor
    · intro h
      cases r with
      | nil => rfl
      | cons x xs =>
        have h' : x :: (xs ++ [e]) = e :: x :: xs := by simpa using h
        have hx : x = e := (List.cons.inj h').1
        exact absurd (by simp [hx]) (nodup_one e l (x :: xs) hnd).2
    · intro h
      simp [h]

/-- Witness of C9 (amended). -/
theorem moveUp_frontmost_witness :
    (moveUp { selection := [textNode 1] } [textNode 0, textNode 1, plainNode 2]).map Prod.snd =
        some [textNode 0, plainNode 2, textNode 1] ∧
      [textNode 0, plainNode 2, textNode 1].filter isSilexElement =
        [textNode 0, textNode 1, plainNode 2].filter isSilexElement ∧
      ([textNode 0, plainNode 2, textNode 1] = [textNode 0, textNode 1, plainNode 2] ↔
        [plainNode 2] = []) :=
  moveUp_frontmost { selection := [textNode 1] } (textNode 1) [textNode 0] [plainNode 2]
    rfl (by decide) (by decide) (by decide)

/-- C10: with the single selection `e`, a Silex element: when `p` is its
previous Silex sibling (only nodes that are no Silex elements lie between
them), `moveDown()` turns `l ++ p :: m ++ e :: r` into `l ++ e :: p :: m ++ r`,
so `e` is the child immediately before `p` and the other children keep their
order; when no Silex element precedes `e`, `moveDown()` leaves the child
sequence as it is. -/
theorem moveDown_single (s : Controller) (c : List Node) (e : Node)
    (hsel : s.selection = [e]) (hnd : c.Nodup) (he : isSilexElement e = true) :
    (∀ p l m r, c = l ++ p :: (m ++ e :: r) → isSilexElement p = true →
        (∀ x ∈ m, isSilexElement x = false) →
        getPreviousElement c e = some p ∧
          (moveDown s c).map Prod.snd = some (l ++ e :: p :: (m ++ r)) ∧
          (l ++ e :: p :: (m ++ r)).filter (fun x => decide (x ≠ e)) =
            c.filter (fun x => decide (x ≠ e))) ∧
      (∀ l r, c = l ++ e :: r → (∀ x ∈ l, isSilexElement x = false) →
        getPreviousElement c e = none ∧ (moveDown s c).map Prod.snd = some c) := by
  constructor
  · intro p l m r hc hp hm
    subst hc
    have hprev := getPreviousElement_found e p l m r hnd he hp hm
    refine ⟨hprev, ?_, ?_⟩
    · unfold moveDown
      rw [reorder_single moveDownStep s _ e hsel]
      simp only [moveDownStep, hprev]
      exact insertBefore_earlier e p l m r hnd
    · simp [List.filter_append, List.filter_cons]
  · intro l r hc hl
    subst hc
    have hprev := getPreviousElement_first e l r he hl
    refine ⟨hprev, ?_⟩
    unfold moveDown
    rw [reorder_single moveDownStep s _ e hsel]
    simp only [moveDownStep, hprev]

/-- Witness of C10: both cases on four children. -/
theorem moveDown_single_witness :
    (getPreviousElement [textNode 0, textNode 1, plainNode 2, textNode 3] (textNode 3) =
        some (textNode 1) ∧
      (moveDown { selection := [textNode 3] }
          [textNode 0, textNode 1, plainNode 2, textNode 3]).map Prod.snd =
        some [textNode 0, textNode 3, textNode 1, plainNode 2] ∧
      [textNode 0, textNode 3, textNode 1, plainNode 2].filter
          (fun x => decide (x ≠ textNode 3)) =
        [textNode 0, textNode 1, plainNode 2, textNode 3].filter
          (fun x => decide (x ≠ textNode 3))) ∧
    (getPreviousElement [plainNode 2, textNode 3, textNode 4] (textNode 3) = none ∧
      (moveDown { selection := [textNode 3] } [plainNode 2, textNode 3, textNode 4]).map
          Prod.snd = some [plainNode 2, textNode 3, textNode 4]) :=
  ⟨(moveDown_single { selection := [textNode 3] }
      [textNode 0, textNode 1, plainNode 2, textNode 3] (textNode 3) rfl (by decide)
      (by decide)).1 (textNode 1) [textNode 0] [plainNode 2] [] rfl (by decide) (by decide),
   (moveDown_single { selection := [textNode 3] } [plainNode 2, textNode 3, textNode 4]
      (textNode 3) rfl (by decide) (by decide)).2 [plainNode 2] [textNode 4] rfl (by decide)⟩

/-! ## Order engine: the sort of the selection -/

theorem indexOfElementFrom_ge (e : Node) (c : List Node) (k : Int) (h : e ∈ c) :
    k ≤ indexOfElementFrom e c k := by
  induction c generalizing k with
  | nil => simp at h
  | cons x xs ih =>
    by_cases hx : x = e
    · simp [indexOfElementFrom, hx]
    · have hxs : e ∈ xs := by
        rcases List.mem_cons.1 h with h | h
        · exact absurd h.symm hx
        · exact h
      have := ih (k + 1) hxs
      simp only [indexOfElementFrom, hx, if_false]
      omega

theorem indexOfElementFrom_pairwise (c : List Node) (k : Int) (hnd : c.Nodup) :
    c.Pairwise (fun a b => indexOfElementFrom a c k < indexOfElementFrom b c k) := by
  induction c generalizing k with
  | nil => exact List.Pairwise.nil
  | cons x xs ih =>
    obtain ⟨hx, hxs⟩ := List.nodup_cons.1 hnd
    rw [List.pairwise_cons]
    constructor
    · intro b hb
      have hxb : x ≠ b := fun h => hx (h ▸ hb)
      have := indexOfElementFrom_ge b xs (k + 1) hb
      simp only [indexOfElementFrom, hxb, if_false, if_true]
      omega
    · refine (ih (k + 1) hxs).imp_of_mem ?_
      intro a b ha hb hab
      have hxa : x ≠ a := fun h => hx (h ▸ ha)
      have hxb : x ≠ b := fun h => hx (h ▸ hb)
      simpa [indexOfElementFrom, hxa, hxb] using hab

/-- Along a child sequence without repetition the raw index increases. -/
theorem indexOfElement_pairwise (c : List Node) (hnd : c.Nodup) :
    c.Pairwise (fun a b => indexOfElement c a < indexOfElement c b) :=
  indexOfElementFrom_pairwise c 0 hnd

theorem indexOfElement_ne (c : List Node) (hnd : c.Nodup) (a b : Node)
    (ha : a ∈ c) (hb : b ∈ c) (hab : a ≠ b) : indexOfElement c a ≠ indexOfElement c b := by
  have hp : c.Pairwise (fun a b => indexOfElement c a ≠ indexOfElement c b) :=
    (indexOfElement_pairwise c hnd).imp (fun h => ne_of_lt h)
  exact hp.forall (fun _ _ h => h.symm) ha hb hab

theorem sortSelection_perm (c sel : List Node) : (sortSelection c sel).Perm sel :=
  List.perm_insertionSort _ sel

/-- The sorted selection is in strictly ascending order of raw child index. -/
theorem sortSelection_ascending (c sel : List Node) (hnd : c.Nodup) (hsel : sel.Nodup)
    (hsub : ∀ e ∈ sel, e ∈ c) :
    (sortSelection c sel).Pairwise (fun a b => indexOfElement c a < indexOfElement c b) := by
  haveI : IsTotal Node (fun a b => indexOfElement c a ≤ indexOfElement c b) :=
    ⟨fun a b => le_total _ _⟩
  haveI : IsTrans Node (fun a b => indexOfElement c a ≤ indexOfElement c b) :=
    ⟨fun _ _ _ h1 h2 => le_trans h1 h2⟩
  have hsorted : (sortSelection c sel).Pairwise
      (fun a b => indexOfElement c a ≤ indexOfElement c b) :=
    List.sorted_insertionSort (fun a b => indexOfElement c a ≤ indexOfElement c b) sel
  have hperm := sortSelection_perm c sel
  have hnd' : (sortSelection c sel).Pairwise (fun a b => a ≠ b) :=
    (hperm.nodup_iff.2 hsel)
  refine (hsorted.and hnd').imp_of_mem ?_
  intro a b ha hb hab
  have hac : a ∈ c := hsub a (hperm.subset ha)
  have hbc : b ∈ c := hsub b (hperm.subset hb)
  exact lt_of_le_of_ne hab.1 (indexOfElement_ne c hnd a b hac hbc hab.2)

/-- The sorted selection is the selected children in the order in which they
stand in the child sequence. -/
theorem sortSelection_eq_filter (c sel : List Node) (hnd : c.Nodup) (hsel : sel.Nodup)
    (hsub : ∀ e ∈ sel, e ∈ c) :
    sortSelection c sel = c.filter (fun x => decide (x ∈ sel)) := by
  haveI : IsAntisymm Node (fun a b => indexOfElement c a < indexOfElement c b) :=
    ⟨fun _ _ h1 h2 => absurd h1 (not_lt.2 (le_of_lt h2))⟩
  have hperm : (sortSelection c sel).Perm (c.filter (fun x => decide (x ∈ sel))) := by
    refine (sortSelection_perm c sel).trans ?_
    refine (List.perm_ext_iff_of_nodup hsel (hnd.filter _)).2 ?_
    intro x
    simp only [List.mem_filter, decide_eq_true_eq]
    exact ⟨fun h => ⟨hsub x h, h⟩, fun h => h.2⟩
  exact List.eq_of_perm_of_sorted hperm (sortSelection_ascending c sel hnd hsel hsub)
    ((indexOfElement_pairwise c hnd).sublist (List.filter_sublist c))

/-! ## Order engine: `moveToTop` and `moveToBottom` on a whole selection -/

theorem foldlM_moveToTopStep (l c : List Node) (hc : c.Nodup) (hl : l.Nodup) :
    l.foldlM moveToTopStep c = some (c.filter (fun x => decide (x ∉ l)) ++ l) := by
  induction l generalizing c with
  | nil => simp
  | cons e es ih =>
    obtain ⟨he, hes⟩ := List.nodup_cons.1 hl
    have hc' : (appendChild c e).Nodup := by
      unfold appendChild
      rw [List.nodup_append]
      refine ⟨hc.erase e, List.nodup_singleton e, ?_⟩
      intro x hx hx'
      rw [List.mem_singleton] at hx'
      subst hx'
      exact (hc.mem_erase_iff.1 hx).1 rfl
    rw [List.foldlM_cons]
    simp only [moveToTopStep, Option.bind_eq_bind, Option.some_bind]
    rw [ih (appendChild c e) hc' hes]
    congr 1
    unfold appendChild
    rw [List.filter_append, hc.erase_eq_filter, List.filter_filter]
    simp only [List.filter_cons, List.filter_nil, he, not_false_eq_true, decide_True, if_true,
      List.append_assoc, List.singleton_append]
    congr 1
    apply List.filter_congr
    intro x _
    by_cases h1 : x = e <;> by_cases h2 : x ∈ es <;> simp [h1, h2]

theorem moveToBottomStep_eq (c : List Node) (e : Node) :
    moveToBottomStep c e = some (e :: c.erase e) := by
  cases c with
  | nil => simp [moveToBottomStep, insertBefore, appendChild]
  | cons x xs =>
    by_cases hx : x = e
    · simp [moveToBottomStep, insertBefore, hx]
    · simp [moveToBottomStep, insertBefore, hx, insertBeforeRef, List.erase_cons]

theorem foldlM_moveToBottomStep (l c : List Node) (hc : c.Nodup) (hl : l.Nodup) :
    l.foldlM moveToBottomStep c = some (l.reverse ++ c.filter (fun x => decide (x ∉ l))) := by
  induction l generalizing c with
  | nil => simp
  | cons e es ih =>
    obtain ⟨he, hes⟩ := List.nodup_cons.1 hl
    have hc' : (e :: c.erase e).Nodup :=
      List.nodup_cons.2 ⟨fun h => (hc.mem_erase_iff.1 h).1 rfl, hc.erase e⟩
    rw [List.foldlM_cons, moveToBottomStep_eq]
    simp only [Option.bind_eq_bind, Option.some_bind]
    rw [ih (e :: c.erase e) hc' hes]
    congr 1
    rw [List.reverse_cons, List.append_assoc]
    congr 1
    rw [hc.erase_eq_filter]
    simp only [List.filter_cons, he, not_false_eq_true, decide_True, if_true,
      List.singleton_append, List.filter_filter]
    congr 1
    apply List.filter_congr
    intro x _
    by_cases h1 : x = e <;> by_cases h2 : x ∈ es <;> simp [h1, h2]

/-- C3: for every child sequence without repetition and every selection of
distinct children of it, in any order, `moveToTop()` leaves the non-selected
children first, in their original order, followed by the selected children,
which so occupy the last positions in ascending order of their original raw
indices. -/
theorem moveToTop_selection (s : Controller) (c : List Node) (hnd : c.Nodup)
    (hsel : s.selection.Nodup) (hsub : ∀ e ∈ s.selection, e ∈ c) :
    (moveToTop s c).map Prod.snd =
        some (c.filter (fun x => decide (x ∉ s.selection)) ++
          c.filter (fun x => decide (x ∈ s.selection))) ∧
      (c.filter (fun x => decide (x ∈ s.selection))).length = s.selection.length ∧
      (c.filter (fun x => decide (x ∈ s.selection))).Pairwise
        (fun a b => indexOfElement c a < indexOfElement c b) := by
  have hsort := sortSelection_eq_filter c s.selection hnd hsel hsub
  refine ⟨?_, ?_, ?_⟩
  · unfold moveToTop
    rw [reorder_snd, foldlM_moveToTopStep _ c hnd ((sortSelection_perm c _).nodup_iff.2 hsel)]
    congr 2
    · apply List.filter_congr
      intro x _
      simp [(sortSelection_perm c s.selection).mem_iff]
  · rw [← hsort]
    exact (sortSelection_perm c s.selection).length_eq
  · exact (indexOfElement_pairwise c hnd).sublist (List.filter_sublist c)

/-- Witness of C3: the selection with raw indices `[2, 0, 3]` among four
children. -/
theorem moveToTop_selection_witness :
    (moveToTop { selection := [textNode 2, textNode 0, textNode 3] }
        [textNode 0, textNode 1, textNode 2, textNode 3]).map Prod.snd =
      some ([textNode 1] ++ [textNode 0, textNode 2, textNode 3]) ∧
    [textNode 0, textNode 2, textNode 3].length = 3 ∧
    [textNode 0, textNode 2, textNode 3].Pairwise
      (fun a b => indexOfElement [textNode 0, textNode 1, textNode 2, textNode 3] a <
        indexOfElement [textNode 0, textNode 1, textNode 2, textNode 3] b) :=
  moveToTop_selection { selection := [textNode 2, textNode 0, textNode 3] }
    [textNode 0, textNode 1, textNode 2, textNode 3] (by decide) (by decide) (by decide)

/-- What `moveToBottom()` does to a selection of distinct children: the
selected children come first, in the reverse of their original order. -/
theorem moveToBottom_selection (s : Controller) (c : List Node) (hnd : c.Nodup)
    (hsel : s.selection.Nodup) (hsub : ∀ e ∈ s.selection, e ∈ c) :
    (moveToBottom s c).map Prod.snd =
      some ((c.filter (fun x => decide (x ∈ s.selection))).reverse ++
        c.filter (fun x => decide (x ∉ s.selection))) := by
  have hsort := sortSelection_eq_filter c s.selection hnd hsel hsub
  unfold moveToBottom
  rw [reorder_snd, foldlM_moveToBottomStep _ c hnd ((sortSelection_perm c _).nodup_iff.2 hsel),
    hsort]
  congr 2
  apply List.filter_congr
  intro x _
  simp only [List.mem_filter, decide_eq_true_eq]
  by_cases hx : x ∈ s.selection
  · simp [hx, hsub x hx]
  · simp [hx]

/-- C4: on the children `[0, 1, 2]` with `0` and `1` selected, `moveToBottom()`
leaves the selected elements in the first two positions in the order `1, 0`,
the reverse of their original relative order. -/
theorem moveToBottom_reverses_selection :
    (moveToBottom { selection := [textNode 0, textNode 1] }
        [textNode 0, textNode 1, textNode 2]).map Prod.snd =
      some [textNode 1, textNode 0, textNode 2] := by
  decide

/-! ## Order engine: what every step keeps -/

/-- A property kept by every step on an element of `l` is kept by the whole
`forEach`, which then runs to its end. -/
theorem foldlM_keeps (step : List Node → Node → Option (List Node))
    (I : List Node → Prop) (l : List Node)
    (hstep : ∀ c e, e ∈ l → I c → ∃ c', step c e = some c' ∧ I c') :
    ∀ c, I c → ∃ c', l.foldlM step c = some c' ∧ I c' := by
  induction l with
  | nil => exact fun c hc => ⟨c, rfl, hc⟩
  | cons e es ih =>
    intro c hc
    obtain ⟨c1, h1, hI1⟩ := hstep c e (by simp) hc
    obtain ⟨c2, h2, hI2⟩ := ih (fun c e he => hstep c e (by simp [he])) c1 hI1
    exact ⟨c2, by simp [List.foldlM_cons, h1, h2], hI2⟩

theorem appendChild_nodup (c : List Node) (e : Node) (hc : c.Nodup) :
    (appendChild c e).Nodup := by
  unfold appendChild
  rw [List.nodup_append]
  refine ⟨hc.erase e, List.nodup_singleton e, ?_⟩
  intro x hx hx'
  rw [List.mem_singleton] at hx'
  subst hx'
  exact (hc.mem_erase_iff.1 hx).1 rfl

theorem appendChild_perm (c : List Node) (e : Node) (he : e ∈ c) :
    (appendChild c e).Perm c := by
  unfold appendChild
  exact List.perm_append_comm.trans (List.perm_cons_erase he).symm

theorem getPreviousElement_mem (c : List Node) (e p : Node)
    (h : getPreviousElement c e = some p) : p ∈ c := by
  rcases (scanFor_eq_some e p c none h).2 with ⟨hres, _⟩ | ⟨l, m, r, hc, _⟩
  · simp at hres
  · simp [hc]

/-- The step of `moveUp` on a child sequence without repetition: it runs, the
result has no repetition, and a family of children that leaves out `e` and
holds only Silex elements, or only nodes that are none, keeps its order. -/
theorem moveUpStep_keeps (c : List Node) (e : Node) (hc : c.Nodup) :
    ∃ c', moveUpStep c e = some c' ∧ c'.Nodup ∧ (e ∈ c → c'.Perm c) ∧
      ∀ P : Node → Bool, P e = false →
        ((∀ x, P x = true → isSilexElement x = true) ∨
          (∀ x, P x = true → isSilexElement x = false)) →
        c'.filter P = c.filter P := by
  cases hnext : getNextElement c e with
  | none =>
    exact ⟨appendChild c e, by simp [moveUpStep, hnext], appendChild_nodup c e hc,
      appendChild_perm c e, fun P hP _ => filter_appendChild_of_false P e hP c⟩
  | some n =>
    rcases (scanFor_eq_some e n c.reverse none hnext).2 with
      ⟨hres, _⟩ | ⟨l, m, r, hrev, hn, hne, hm⟩
    · simp at hres
    · have hshape : c = r.reverse ++ e :: (m.reverse ++ n :: l.reverse) := by
        have := congrArg List.reverse hrev
        simpa using this
      subst hshape
      have hperm : (r.reverse ++ n :: e :: (m.reverse ++ l.reverse)).Perm
          (r.reverse ++ e :: (m.reverse ++ n :: l.reverse)) := by
        refine List.Perm.append_left _ ?_
        exact (List.Perm.swap e n _).trans (List.Perm.cons e List.perm_middle.symm)
      refine ⟨_, ?_, hperm.nodup_iff.2 hc, fun _ => hperm, ?_⟩
      · simp only [moveUpStep, hnext]
        exact insertBefore_later e n r.reverse m.reverse l.reverse hc
      · intro P hP hkind
        rcases hkind with hk | hk
        · have hfm : m.reverse.filter P = [] := by
            rw [List.filter_eq_nil_iff]
            intro x hx hPx
            have := hm x (List.mem_reverse.1 hx)
            rw [hk x hPx] at this
            exact Bool.noConfusion this
          simp [List.filter_append, List.filter_cons, hP, hfm]
        · have hPn : P n = false := by
            cases hPn : P n with
            | false => rfl
            | true =>
              have := hk n hPn
              rw [hn] at this
              exact Bool.noConfusion this
          simp [List.filter_append, List.filter_cons, hP, hPn]

theorem moveDownStep_keeps (P : Node → Bool) (c : List Node) (e : Node) (hP : P e = false) :
    ∃ c', moveDownStep c e = some c' ∧ c'.filter P = c.filter P := by
  cases hprev : getPreviousElement c e with
  | none => exact ⟨c, by simp [moveDownStep, hprev], rfl⟩
  | some p =>
    obtain ⟨c', h1, h2⟩ := insertBefore_filter P e hP c (some p)
      (fun x hx => by
        have : p = x := by simpa using hx
        exact this ▸ getPreviousElement_mem c e p hprev)
    exact ⟨c', by simp [moveDownStep, hprev, h1], h2⟩

theorem moveToTopStep_keeps (P : Node → Bool) (c : List Node) (e : Node) (hP : P e = false) :
    ∃ c', moveToTopStep c e = some c' ∧ c'.filter P = c.filter P :=
  ⟨appendChild c e, rfl, filter_appendChild_of_false P e hP c⟩

theorem moveToBottomStep_keeps (P : Node → Bool) (c : List Node) (e : Node)
    (hP : P e = false) :
    ∃ c', moveToBottomStep c e = some c' ∧ c'.filter P = c.filter P :=
  ⟨e :: c.erase e, moveToBottomStep_eq c e, by
    simp [List.filter_cons, hP, filter_erase_of_false P e hP]⟩

/-- A command whose step keeps every family of children that leaves out the
stepped element keeps the non-selected children in their order. -/
theorem reorder_keeps (step : List Node → Node → Option (List Node))
    (hstep : ∀ (P : Node → Bool) c e, P e = false →
      ∃ c', step c e = some c' ∧ c'.filter P = c.filter P)
    (s : Controller) (c : List Node) :
    ∃ c', (reorder step s c).map Prod.snd = some c' ∧
      c'.filter (fun x => decide (x ∉ s.selection)) =
        c.filter (fun x => decide (x ∉ s.selection)) := by
  rw [reorder_snd]
  refine foldlM_keeps step
    (fun c' => c'.filter (fun x => decide (x ∉ s.selection)) =
      c.filter (fun x => decide (x ∉ s.selection)))
    (sortSelection c s.selection) ?_ c rfl
  intro c1 e he hI
  have hmem : e ∈ s.selection := (sortSelection_perm c s.selection).mem_iff.1 he
  obtain ⟨c2, h1, h2⟩ := hstep (fun x => decide (x ∉ s.selection)) c1 e (by simp [hmem])
  exact ⟨c2, h1, h2.trans hI⟩

/-- C7 (as stated) fails for `moveUp`: on the children `[0, 1, 2]`, where `1`
is no Silex element and `0` is selected, the step moves the next Silex
sibling `2` before `0`, so the non-selected children `1, 2` end up in the
order `2, 1`. -/
theorem moveUp_unselected_counterexample :
    (moveUp { selection := [textNode 0] } [textNode 0, plainNode 1, textNode 2]).map Prod.snd =
        some [textNode 2, textNode 0, plainNode 1] ∧
      [textNode 0, plainNode 1, textNode 2].filter (fun x => decide (x ∉ [textNode 0])) =
        [plainNode 1, textNode 2] ∧
      [textNode 2, textNode 0, plainNode 1].filter (fun x => decide (x ∉ [textNode 0])) =
        [textNode 2, plainNode 1] := by
  decide

/-- C7 (amended): `moveDown`, `moveToTop` and `moveToBottom`, for every child
sequence and every selection, run to their end and leave the non-selected
children in their order. `moveUp`, on a child sequence without repetition,
runs to its end and leaves the non-selected Silex elements in their order, and
the non-selected nodes that are no Silex elements in theirs. -/
theorem reorder_unselected_order (s : Controller) (c : List Node) :
    (∃ c', (moveDown s c).map Prod.snd = some c' ∧
        c'.filter (fun x => decide (x ∉ s.selection)) =
          c.filter (fun x => decide (x ∉ s.selection))) ∧
      (∃ c', (moveToTop s c).map Prod.snd = some c' ∧
        c'.filter (fun x => decide (x ∉ s.selection)) =
          c.filter (fun x => decide (x ∉ s.selection))) ∧
      (∃ c', (moveToBottom s c).map Prod.snd = some c' ∧
        c'.filter (fun x => decide (x ∉ s.selection)) =
          c.filter (fun x => decide (x ∉ s.selection))) ∧
      (c.Nodup → ∃ c', (moveUp s c).map Prod.snd = some c' ∧
        c'.filter (fun x => isSilexElement x && decide (x ∉ s.selection)) =
          c.filter (fun x => isSilexElement x && decide (x ∉ s.selection)) ∧
        c'.filter (fun x => !isSilexElement x && decide (x ∉ s.selection)) =
          c.filter (fun x => !isSilexElement x && decide (x ∉ s.selection))) := by
  refine ⟨reorder_keeps moveDownStep moveDownStep_keeps s c,
    reorder_keeps moveToTopStep moveToTopStep_keeps s c,
    reorder_keeps moveToBottomStep moveToBottomStep_keeps s c, ?_⟩
  intro hnd
  unfold moveUp
  rw [reorder_snd]
  obtain ⟨c', hrun, _, hA, hB⟩ := foldlM_keeps moveUpStep
    (fun c' => c'.Nodup ∧
      c'.filter (fun x => isSilexElement x && decide (x ∉ s.selection)) =
        c.filter (fun x => isSilexElement x && decide (x ∉ s.selection)) ∧
      c'.filter (fun x => !isSilexElement x && decide (x ∉ s.selection)) =
        c.filter (fun x => !isSilexElement x && decide (x ∉ s.selection)))
    (sortSelection c s.selection)
    (by
      intro c1 e he hI
      obtain ⟨hnd1, hA1, hB1⟩ := hI
      have hmem : e ∈ s.selection := (sortSelection_perm c s.selection).mem_iff.1 he
      obtain ⟨c2, hstep, hnd2, _, hkeep⟩ := moveUpStep_keeps c1 e hnd1
      refine ⟨c2, hstep, hnd2, ?_, ?_⟩
      · rw [← hA1]
        exact hkeep _ (by simp [hmem]) (Or.inl (fun x hx => by
          simp only [Bool.and_eq_true] at hx
          exact hx.1))
      · rw [← hB1]
        exact hkeep _ (by simp [hmem]) (Or.inr (fun x hx => by
          simp only [Bool.and_eq_true, Bool.not_eq_true'] at hx
          exact hx.1)))
    c ⟨hnd, rfl, rfl⟩
  exact ⟨c', hrun, hA, hB⟩

/-- Witness of C7 (amended), the `moveUp` part, on the children `[0, 1, 2, 3]`
with `1` no Silex element and `0` selected. -/
theorem reorder_unselected_order_witness :
    ∃ c', (moveUp { selection := [textNode 0] }
        [textNode 0, plainNode 1, textNode 2, textNode 3]).map Prod.snd = some c' ∧
      c'.filter (fun x => isSilexElement x && decide (x ∉ [textNode 0])) =
        [textNode 0, plainNode 1, textNode 2, textNode 3].filter
          (fun x => isSilexElement x && decide (x ∉ [textNode 0])) ∧
      c'.filter (fun x => !isSilexElement x && decide (x ∉ [textNode 0])) =
        [textNode 0, plainNode 1, textNode 2, textNode 3].filter
          (fun x => !isSilexElement x && decide (x ∉ [textNode 0])) :=
  (reorder_unselected_order { selection := [textNode 0] }
    [textNode 0, plainNode 1, textNode 2, textNode 3]).2.2.2 (by decide)

/-! ## Order engine: `getPreviousElement` and `getNextElement` against raw indices -/

/-- Either no node of `l` is a Silex element, or `l` has a last Silex element. -/
theorem last_silex_split (l : List Node) :
    (∀ x ∈ l, isSilexElement x = false) ∨
      ∃ l1 p m, l = l1 ++ p :: m ∧ isSilexElement p = true ∧
        ∀ x ∈ m, isSilexElement x = false := by
  induction l with
  | nil => exact Or.inl (by simp)
  | cons x xs ih =>
    rcases ih with hall | ⟨l1, p, m, hl, hp, hm⟩
    · by_cases hx : isSilexElement x = true
      · exact Or.inr ⟨[], x, xs, rfl, hx, hall⟩
      · refine Or.inl ?_
        intro y hy
        rcases List.mem_cons.1 hy with hy | hy
        · rw [hy]; simpa using hx
        · exact hall y hy
    · exact Or.inr ⟨x :: l1, p, m, by simp [hl], hp, hm⟩

/-- Either no node of `r` is a Silex element, or `r` has a first Silex element. -/
theorem first_silex_split (r : List Node) :
    (∀ x ∈ r, isSilexElement x = false) ∨
      ∃ m n r1, r = m ++ n :: r1 ∧ isSilexElement n = true ∧
        ∀ x ∈ m, isSilexElement x = false := by
  induction r with
  | nil => exact Or.inl (by simp)
  | cons x xs ih =>
    by_cases hx : isSilexElement x = true
    · exact Or.inr ⟨[], x, xs, rfl, hx, by simp⟩
    · have hx' : isSilexElement x = false := by simpa using hx
      rcases ih with hall | ⟨m, n, r1, hr, hn, hm⟩
      · refine Or.inl ?_
        intro y hy
        rcases List.mem_cons.1 hy with hy | hy
        · rw [hy]; exact hx'
        · exact hall y hy
      · refine Or.inr ⟨x :: m, n, r1, by simp [hr], hn, ?_⟩
        intro y hy
        rcases List.mem_cons.1 hy with hy | hy
        · rw [hy]; exact hx'
        · exact hm y hy

/-- In a child sequence without repetition the children with a smaller raw
index than `e` are those standing before `e`. -/
theorem indexOfElement_lt_iff (e q : Node) (l r : List Node) (hnd : (l ++ e :: r).Nodup)
    (hq : q ∈ l ++ e :: r) :
    indexOfElement (l ++ e :: r) q < indexOfElement (l ++ e :: r) e ↔ q ∈ l := by
  have hp := indexOfElement_pairwise (l ++ e :: r) hnd
  rw [List.pairwise_append] at hp
  obtain ⟨_, hp2, hp3⟩ := hp
  rw [List.pairwise_cons] at hp2
  constructor
  · intro hlt
    rcases List.mem_append.1 hq with hq | hq
    · exact hq
    · rcases List.mem_cons.1 hq with hq | hq
      · rw [hq] at hlt
        exact absurd hlt (lt_irrefl _)
      · exact absurd hlt (not_lt.2 (le_of_lt (hp2.1 q hq)))
  · intro hl
    exact hp3 q hl e (by simp)

/-- In a child sequence without repetition the children with a greater raw
index than `e` are those standing after `e`. -/
theorem indexOfElement_gt_iff (e q : Node) (l r : List Node) (hnd : (l ++ e :: r).Nodup)
    (hq : q ∈ l ++ e :: r) :
    indexOfElement (l ++ e :: r) e < indexOfElement (l ++ e :: r) q ↔ q ∈ r := by
  have hp := indexOfElement_pairwise (l ++ e :: r) hnd
  rw [List.pairwise_append] at hp
  obtain ⟨_, hp2, hp3⟩ := hp
  rw [List.pairwise_cons] at hp2
  constructor
  · intro hlt
    rcases List.mem_append.1 hq with hq | hq
    · exact absurd hlt (not_lt.2 (le_of_lt (hp3 q hq e (by simp))))
    · rcases List.mem_cons.1 hq with hq | hq
      · rw [hq] at hlt
        exact absurd hlt (lt_irrefl _)
      · exact hq
  · intro hr
    exact hp2.1 q hr

theorem indexOfElement_lt_iff_of_eq (c : List Node) (e q : Node) (l r : List Node)
    (hc : c = l ++ e :: r) (hnd : c.Nodup) (hq : q ∈ c) :
    indexOfElement c q < indexOfElement c e ↔ q ∈ l := by
  subst hc
  exact indexOfElement_lt_iff e q l r hnd hq

theorem indexOfElement_gt_iff_of_eq (c : List Node) (e q : Node) (l r : List Node)
    (hc : c = l ++ e :: r) (hnd : c.Nodup) (hq : q ∈ c) :
    indexOfElement c e < indexOfElement c q ↔ q ∈ r := by
  subst hc
  exact indexOfElement_gt_iff e q l r hnd hq

/-- C11: in a child sequence without repetition, for a Silex element `e` of
it, `getPreviousElement` answers `p` exactly when `p` is the Silex element of
greatest raw index below that of `e`, and answers `null` exactly when no Silex
element has a raw index below that of `e`; nodes that are no Silex elements
are passed over. -/
theorem getPreviousElement_nearest (c : List Node) (e : Node) (hnd : c.Nodup) (hmem : e ∈ c)
    (he : isSilexElement e = true) :
    (∀ p, getPreviousElement c e = some p ↔
      (p ∈ c ∧ isSilexElement p = true ∧ indexOfElement c p < indexOfElement c e ∧
        ∀ q ∈ c, isSilexElement q = true → indexOfElement c q < indexOfElement c e →
          indexOfElement c q ≤ indexOfElement c p)) ∧
    (getPreviousElement c e = none ↔
      ∀ q ∈ c, isSilexElement q = true → ¬ indexOfElement c q < indexOfElement c e) := by
  obtain ⟨l, r, hc⟩ := List.append_of_mem hmem
  have hlt := fun q hq => indexOfElement_lt_iff_of_eq c e q l r hc hnd hq
  rcases last_silex_split l with hall | ⟨l1, p0, m, hl, hp0, hm⟩
  · have hnone : getPreviousElement c e = none := by
      rw [hc]
      exact getPreviousElement_first e l r he hall
    have hno : ∀ q ∈ c, isSilexElement q = true →
        ¬ indexOfElement c q < indexOfElement c e := by
      intro q hq hqs hql
      have := hall q ((hlt q hq).1 hql)
      rw [hqs] at this
      exact Bool.noConfusion this
    refine ⟨fun p => ?_, ?_⟩
    · rw [hnone]
      constructor
      · intro h
        exact Option.noConfusion h
      · rintro ⟨hp, hps, hpl, _⟩
        exact absurd hpl (hno p hp hps)
    · rw [hnone]
      exact ⟨fun _ => hno, fun _ => rfl⟩
  · have hc2 : c = l1 ++ p0 :: (m ++ e :: r) := by
      rw [hc, hl]
      simp
    have hsome : getPreviousElement c e = some p0 := by
      rw [hc2]
      exact getPreviousElement_found e p0 l1 m r (hc2 ▸ hnd) he hp0 hm
    have hp0c : p0 ∈ c := by
      rw [hc2]
      simp
    have hp0l : p0 ∈ l := by
      rw [hl]
      simp
    have hp0lt : indexOfElement c p0 < indexOfElement c e := (hlt p0 hp0c).2 hp0l
    have hmax : ∀ q ∈ c, isSilexElement q = true →
        indexOfElement c q < indexOfElement c e →
        indexOfElement c q ≤ indexOfElement c p0 := by
      intro q hq hqs hql
      have hql' : q ∈ l := (hlt q hq).1 hql
      rw [hl] at hql'
      rcases List.mem_append.1 hql' with h1 | h1
      · exact le_of_lt ((indexOfElement_lt_iff_of_eq c p0 q l1 (m ++ e :: r) hc2 hnd hq).2 h1)
      · rcases List.mem_cons.1 h1 with h2 | h2
        · rw [h2]
        · have := hm q h2
          rw [hqs] at this
          exact Bool.noConfusion this
    refine ⟨fun p => ?_, ?_⟩
    · rw [hsome]
      constructor
      · intro h
        have hpp : p0 = p := by simpa using h
        subst hpp
        exact ⟨hp0c, hp0, hp0lt, hmax⟩
      · rintro ⟨hp, hps, hpl, hpmax⟩
        have h1 : indexOfElement c p0 ≤ indexOfElement c p := hpmax p0 hp0c hp0 hp0lt
        have h2 : indexOfElement c p ≤ indexOfElement c p0 := hmax p hp hps hpl
        by_cases hpp : p0 = p
        · rw [hpp]
        · exact absurd (le_antisymm h1 h2) (indexOfElement_ne c hnd p0 p hp0c hp hpp)
    · rw [hsome]
      constructor
      · intro h
        exact Option.noConfusion h
      · intro h
        exact absurd hp0lt (h p0 hp0c hp0)

/-- Witness of C11: the children `[unrecognized, A, unrecognized, B]`, where
`getPreviousElement(B)` is `A`. -/
theorem getPreviousElement_nearest_witness :
    getPreviousElement [plainNode 0, textNode 1, plainNode 2, textNode 3] (textNode 3) =
      some (textNode 1) :=
  ((getPreviousElement_nearest [plainNode 0, textNode 1, plainNode 2, textNode 3] (textNode 3)
    (by decide) (by decide) (by decide)).1 (textNode 1)).2 (by decide)

/-- C12: in a child sequence without repetition, for a Silex element `e` of
it, `getNextElement` answers `n` exactly when `n` is the Silex element of
smallest raw index above that of `e`, and answers `null` exactly when no Silex
element has a raw index above that of `e`; nodes that are no Silex elements
are passed over. -/
theorem getNextElement_nearest (c : List Node) (e : Node) (hnd : c.Nodup) (hmem : e ∈ c)
    (he : isSilexElement e = true) :
    (∀ n, getNextElement c e = some n ↔
      (n ∈ c ∧ isSilexElement n = true ∧ indexOfElement c e < indexOfElement c n ∧
        ∀ q ∈ c, isSilexElement q = true → indexOfElement c e < indexOfElement c q →
          indexOfElement c n ≤ indexOfElement c q)) ∧
    (getNextElement c e = none ↔
      ∀ q ∈ c, isSilexElement q = true → ¬ indexOfElement c e < indexOfElement c q) := by
  obtain ⟨l, r, hc⟩ := List.append_of_mem hmem
  have hgt := fun q hq => indexOfElement_gt_iff_of_eq c e q l r hc hnd hq
  rcases first_silex_split r with hall | ⟨m, n0, r1, hr, hn0, hm⟩
  · have hnone : getNextElement c e = none := by
      rw [hc]
      exact getNextElement_last e l r he hall
    have hno : ∀ q ∈ c, isSilexElement q = true →
        ¬ indexOfElement c e < indexOfElement c q := by
      intro q hq hqs hql
      have := hall q ((hgt q hq).1 hql)
      rw [hqs] at this
      exact Bool.noConfusion this
    refine ⟨fun n => ?_, ?_⟩
    · rw [hnone]
      constructor
      · intro h
        exact Option.noConfusion h
      · rintro ⟨hn, hns, hnl, _⟩
        exact absurd hnl (hno n hn hns)
    · rw [hnone]
      exact ⟨fun _ => hno, fun _ => rfl⟩
  · have hc2 : c = l ++ e :: (m ++ n0 :: r1) := by
      rw [hc, hr]
    have hc3 : c = (l ++ e :: m) ++ n0 :: r1 := by
      rw [hc2]
      simp
    have hsome : getNextElement c e = some n0 := by
      rw [hc2]
      exact getNextElement_found e n0 l m r1 (hc2 ▸ hnd) he hn0 hm
    have hn0c : n0 ∈ c := by
      rw [hc2]
      simp
    have hn0r : n0 ∈ r := by
      rw [hr]
      simp
    have hn0gt : indexOfElement c e < indexOfElement c n0 := (hgt n0 hn0c).2 hn0r
    have hmin : ∀ q ∈ c, isSilexElement q = true →
        indexOfElement c e < indexOfElement c q →
        indexOfElement c n0 ≤ indexOfElement c q := by
      intro q hq hqs hql
      have hqr : q ∈ r := (hgt q hq).1 hql
      rw [hr] at hqr
      rcases List.mem_append.1 hqr with h1 | h1
      · have := hm q h1
        rw [hqs] at this
        exact Bool.noConfusion this
      · rcases List.mem_cons.1 h1 with h2 | h2
        · rw [h2]
        · exact le_of_lt ((indexOfElement_gt_iff_of_eq c n0 q (l ++ e :: m) r1 hc3 hnd hq).2 h2)
    refine ⟨fun n => ?_, ?_⟩
    · rw [hsome]
      constructor
      · intro h
        have hnn : n0 = n := by simpa using h
        subst hnn
        exact ⟨hn0c, hn0, hn0gt, hmin⟩
      · rintro ⟨hn, hns, hnl, hnmin⟩
        have h1 : indexOfElement c n ≤ indexOfElement c n0 := hnmin n0 hn0c hn0 hn0gt
        have h2 : indexOfElement c n0 ≤ indexOfElement c n := hmin n hn hns hnl
        by_cases hnn : n0 = n
        · rw [hnn]
        · exact absurd (le_antisymm h2 h1) (indexOfElement_ne c hnd n0 n hn0c hn hnn)
    · rw [hsome]
      constructor
      · intro h
        exact Option.noConfusion h
      · intro h
        exact absurd hn0gt (h n0 hn0c hn0)

/-- Witness of C12: the children `[unrecognized, A, unrecognized, B]`, where
`getNextElement(A)` is `B`. -/
theorem getNextElement_nearest_witness :
    getNextElement [plainNode 0, textNode 1, plainNode 2, textNode 3] (textNode 1) =
      some (textNode 3) :=
  ((getNextElement_nearest [plainNode 0, textNode 1, plainNode 2, textNode 3] (textNode 1)
    (by decide) (by decide) (by decide)).1 (textNode 3)).2 (by decide)

/-! ## Order engine: the commands permute the children -/

theorem insertBeforeRef_perm (node ref : Node) (l : List Node) :
    (insertBeforeRef node ref l).Perm (node :: l) := by
  induction l with
  | nil => exact List.Perm.refl _
  | cons x xs ih =>
    by_cases hx : x = ref
    · simp [insertBeforeRef, hx]
    · simp only [insertBeforeRef, hx, if_false]
      exact (List.Perm.cons x ih).trans (List.Perm.swap node x xs)

theorem insertBefore_perm (c : List Node) (e : Node) (child : Option Node) (he : e ∈ c)
    (hchild : ∀ x, child = some x → x ∈ c) :
    ∃ c', insertBefore c e child = some c' ∧ c'.Perm c := by
  cases child with
  | none => exact ⟨appendChild c e, rfl, appendChild_perm c e he⟩
  | some ref =>
    have hmem : ref ∈ c := hchild ref rfl
    by_cases hre : ref = e
    · exact ⟨c, by simp [insertBefore, hre, he], List.Perm.refl c⟩
    · exact ⟨insertBeforeRef e ref (c.erase e), by simp [insertBefore, hmem, hre],
        (insertBeforeRef_perm e ref (c.erase e)).trans (List.perm_cons_erase he).symm⟩

theorem moveUpStep_perm (c : List Node) (e : Node) (hc : c.Nodup) (he : e ∈ c) :
    ∃ c', moveUpStep c e = some c' ∧ c'.Perm c := by
  obtain ⟨c', hstep, _, hperm, _⟩ := moveUpStep_keeps c e hc
  exact ⟨c', hstep, hperm he⟩

theorem moveDownStep_perm (c : List Node) (e : Node) (_hc : c.Nodup) (he : e ∈ c) :
    ∃ c', moveDownStep c e = some c' ∧ c'.Perm c := by
  cases hprev : getPreviousElement c e with
  | none => exact ⟨c, by simp [moveDownStep, hprev], List.Perm.refl c⟩
  | some p =>
    obtain ⟨c', h1, h2⟩ := insertBefore_perm c e (some p) he
      (fun x hx => by
        have : p = x := by simpa using hx
        exact this ▸ getPreviousElement_mem c e p hprev)
    exact ⟨c', by simp [moveDownStep, hprev, h1], h2⟩

theorem moveToTopStep_perm (c : List Node) (e : Node) (_hc : c.Nodup) (he : e ∈ c) :
    ∃ c', moveToTopStep c e = some c' ∧ c'.Perm c :=
  ⟨appendChild c e, rfl, appendChild_perm c e he⟩

theorem moveToBottomStep_perm (c : List Node) (e : Node) (_hc : c.Nodup) (he : e ∈ c) :
    ∃ c', moveToBottomStep c e = some c' ∧ c'.Perm c :=
  ⟨e :: c.erase e, moveToBottomStep_eq c e, (List.perm_cons_erase he).symm⟩

/-- A command whose step permutes the children permutes the children. -/
theorem reorder_perm (step : List Node → Node → Option (List Node))
    (hstep : ∀ c e, c.Nodup → e ∈ c → ∃ c', step c e = some c' ∧ c'.Perm c)
    (s : Controller) (c : List Node) (hnd : c.Nodup) (hsub : ∀ e ∈ s.selection, e ∈ c) :
    ∃ c', (reorder step s c).map Prod.snd = some c' ∧ c'.Perm c ∧ c'.Nodup ∧
      c'.length = c.length := by
  rw [reorder_snd]
  obtain ⟨c', hrun, hperm⟩ := foldlM_keeps step (fun c' => c'.Perm c)
    (sortSelection c s.selection)
    (by
      intro c1 e he hI
      have hmem : e ∈ c1 :=
        hI.mem_iff.2 (hsub e ((sortSelection_perm c s.selection).mem_iff.1 he))
      obtain ⟨c2, h1, h2⟩ := hstep c1 e (hI.nodup_iff.2 hnd) hmem
      exact ⟨c2, h1, h2.trans hI⟩)
    c (List.Perm.refl c)
  exact ⟨c', hrun, hperm, hperm.nodup_iff.2 hnd, hperm.length_eq⟩

/-- C19: on a child sequence without repetition and a selection of children
of it, each of `moveUp`, `moveDown`, `moveToTop` and `moveToBottom` runs to
its end and yields a permutation of the child sequence: no child is lost or
doubled, and the length is unchanged. -/
theorem reorder_permutes (s : Controller) (c : List Node) (hnd : c.Nodup)
    (hsub : ∀ e ∈ s.selection, e ∈ c) :
    (∃ c', (moveUp s c).map Prod.snd = some c' ∧ c'.Perm c ∧ c'.Nodup ∧
        c'.length = c.length) ∧
      (∃ c', (moveDown s c).map Prod.snd = some c' ∧ c'.Perm c ∧ c'.Nodup ∧
        c'.length = c.length) ∧
      (∃ c', (moveToTop s c).map Prod.snd = some c' ∧ c'.Perm c ∧ c'.Nodup ∧
        c'.length = c.length) ∧
      (∃ c', (moveToBottom s c).map Prod.snd = some c' ∧ c'.Perm c ∧ c'.Nodup ∧
        c'.length = c.length) :=
  ⟨reorder_perm moveUpStep moveUpStep_perm s c hnd hsub,
    reorder_perm moveDownStep moveDownStep_perm s c hnd hsub,
    reorder_perm moveToTopStep moveToTopStep_perm s c hnd hsub,
    reorder_perm moveToBottomStep moveToBottomStep_perm s c hnd hsub⟩

/-- Witness of C19 on four children, one of them no Silex element, with two
selected. -/
theorem reorder_permutes_witness :
    (∃ c', (moveUp { selection := [textNode 3, textNode 0] }
          [textNode 0, plainNode 1, textNode 2, textNode 3]).map Prod.snd = some c' ∧
        c'.Perm [textNode 0, plainNode 1, textNode 2, textNode 3] ∧ c'.Nodup ∧
        c'.length = [textNode 0, plainNode 1, textNode 2, textNode 3].length) ∧
      (∃ c', (moveDown { selection := [textNode 3, textNode 0] }
          [textNode 0, plainNode 1, textNode 2, textNode 3]).map Prod.snd = some c' ∧
        c'.Perm [textNode 0, plainNode 1, textNode 2, textNode 3] ∧ c'.Nodup ∧
        c'.length = [textNode 0, plainNode 1, textNode 2, textNode 3].length) ∧
      (∃ c', (moveToTop { selection := [textNode 3, textNode 0] }
          [textNode 0, plainNode 1, textNode 2, textNode 3]).map Prod.snd = some c' ∧
        c'.Perm [textNode 0, plainNode 1, textNode 2, textNode 3] ∧ c'.Nodup ∧
        c'.length = [textNode 0, plainNode 1, textNode 2, textNode 3].length) ∧
      (∃ c', (moveToBottom { selection := [textNode 3, textNode 0] }
          [textNode 0, plainNode 1, textNode 2, textNode 3]).map Prod.snd = some c' ∧
        c'.Perm [textNode 0, plainNode 1, textNode 2, textNode 3] ∧ c'.Nodup ∧
        c'.length = [textNode 0, plainNode 1, textNode 2, textNode 3].length) :=
  reorder_permutes { selection := [textNode 3, textNode 0] }
    [textNode 0, plainNode 1, textNode 2, textNode 3] (by decide) (by decide)

/-- C20: with two Silex elements `a`, `b` selected, `b` being the next Silex
sibling of `a`, `moveUp()` turns `l ++ a :: m ++ b :: r` into
`l ++ a :: b :: m ++ r`: the first step puts `b` before `a`, the second puts
`a` back before `b`, and the sequence of Silex elements is as before, whatever
follows `b`. -/
theorem moveUp_adjacent_pair (s : Controller) (a b : Node) (l m r : List Node)
    (hsel : s.selection = [a, b] ∨ s.selection = [b, a])
    (hnd : (l ++ a :: (m ++ b :: r)).Nodup)
    (ha : isSilexElement a = true) (hb : isSilexElement b = true)
    (hm : ∀ x ∈ m, isSilexElement x = false) :
    getNextElement (l ++ a :: (m ++ b :: r)) a = some b ∧
      moveUpStep (l ++ a :: (m ++ b :: r)) a = some (l ++ b :: a :: (m ++ r)) ∧
      moveUpStep (l ++ b :: a :: (m ++ r)) b = some (l ++ a :: b :: (m ++ r)) ∧
      (moveUp s (l ++ a :: (m ++ b :: r))).map Prod.snd = some (l ++ a :: b :: (m ++ r)) ∧
      (l ++ a :: b :: (m ++ r)).filter isSilexElement =
        (l ++ a :: (m ++ b :: r)).filter isSilexElement := by
  obtain ⟨hal, ham, har, hbl, hbm, hbr, hab⟩ := nodup_two a b l m r hnd
  have hnext := getNextElement_found a b l m r hnd ha hb hm
  have hstep1 : moveUpStep (l ++ a :: (m ++ b :: r)) a = some (l ++ b :: a :: (m ++ r)) := by
    simp only [moveUpStep, hnext]
    exact insertBefore_later a b l m r hnd
  have hnd1 : (l ++ b :: ([] ++ a :: (m ++ r))).Nodup := by
    have hperm : (l ++ b :: ([] ++ a :: (m ++ r))).Perm (l ++ a :: (m ++ b :: r)) := by
      refine List.Perm.append_left _ ?_
      exact (List.Perm.swap a b _).trans (List.Perm.cons a List.perm_middle.symm)
    exact hperm.nodup_iff.2 hnd
  have hstep2 : moveUpStep (l ++ b :: a :: (m ++ r)) b = some (l ++ a :: b :: (m ++ r)) := by
    have hnext2 := getNextElement_found b a l [] (m ++ r) hnd1 hb ha (by simp)
    have hins := insertBefore_later b a l [] (m ++ r) hnd1
    simp only [List.nil_append] at hnext2 hins
    simp only [moveUpStep, hnext2]
    exact hins
  have hsort : sortSelection (l ++ a :: (m ++ b :: r)) s.selection = [a, b] := by
    have hselnd : s.selection.Nodup := by
      rcases hsel with h | h <;> rw [h] <;> simp [hab, Ne.symm hab]
    have hselsub : ∀ e ∈ s.selection, e ∈ l ++ a :: (m ++ b :: r) := by
      intro e he
      rcases hsel with h | h <;> rw [h] at he <;> simp at he <;>
        rcases he with he | he <;> simp [he]
    rw [sortSelection_eq_filter _ _ hnd hselnd hselsub]
    have hmemsel : ∀ x, x ∈ s.selection ↔ (x = a ∨ x = b) := by
      intro x
      rcases hsel with h | h <;> rw [h] <;> simp [or_comm]
    have hfl : ∀ t : List Node, a ∉ t → b ∉ t →
        t.filter (fun x => decide (x ∈ s.selection)) = [] := by
      intro t hat hbt
      rw [List.filter_eq_nil_iff]
      intro x hx
      simp only [decide_eq_true_eq, hmemsel]
      rintro (h | h)
      · exact hat (h ▸ hx)
      · exact hbt (h ▸ hx)
    have hda : decide (a ∈ s.selection) = true := by simp [hmemsel]
    have hdb : decide (b ∈ s.selection) = true := by simp [hmemsel]
    simp [List.filter_append, List.filter_cons, hfl l hal hbl, hfl m ham hbm, hfl r har hbr,
      hda, hdb]
  refine ⟨hnext, hstep1, hstep2, ?_, ?_⟩
  · unfold moveUp
    rw [reorder_snd, hsort]
    simp [List.foldlM_cons, hstep1, hstep2]
  · have hfm : m.filter isSilexElement = [] := by
      rw [List.filter_eq_nil_iff]
      intro x hx
      simp [hm x hx]
    simp [List.filter_append, List.filter_cons, ha, hb, hfm]

/-- Witness of C20: `a`, `b` selected, a further Silex element after `b`. -/
theorem moveUp_adjacent_pair_witness :
    getNextElement [textNode 0, textNode 1, plainNode 2, textNode 3, textNode 4] (textNode 1) =
        some (textNode 3) ∧
      moveUpStep [textNode 0, textNode 1, plainNode 2, textNode 3, textNode 4] (textNode 1) =
        some [textNode 0, textNode 3, textNode 1, plainNode 2, textNode 4] ∧
      moveUpStep [textNode 0, textNode 3, textNode 1, plainNode 2, textNode 4] (textNode 3) =
        some [textNode 0, textNode 1, textNode 3, plainNode 2, textNode 4] ∧
      (moveUp { selection := [textNode 3, textNode 1] }
          [textNode 0, textNode 1, plainNode 2, textNode 3, textNode 4]).map Prod.snd =
        some [textNode 0, textNode 1, textNode 3, plainNode 2, textNode 4] ∧
      [textNode 0, textNode 1, textNode 3, plainNode 2, textNode 4].filter isSilexElement =
        [textNode 0, textNode 1, plainNode 2, textNode 3, textNode 4].filter isSilexElement :=
  moveUp_adjacent_pair { selection := [textNode 3, textNode 1] } (textNode 1) (textNode 3)
    [textNode 0] [plainNode 2] [textNode 4] (Or.inr rfl) (by decide) (by decide) (by decide)
    (by decide)

/-! ## JavaScript numbers: sums and differences of small integers are exact -/

theorem Binary64.shiftOf_le (fuel : Nat) (m j : Nat) (hm : m < 2 ^ 53) :
    Binary64.shiftOf fuel (m * 2 ^ j) ≤ j := by
  induction fuel generalizing j with
  | zero => simp [Binary64.shiftOf]
  | succ fuel ih =>
    unfold Binary64.shiftOf
    split
    · exact Nat.zero_le j
    · rename_i h
      cases j with
      | zero => exact absurd (by simpa using hm) h
      | succ j =>
        have hdiv : m * 2 ^ (j + 1) / 2 = m * 2 ^ j := by
          rw [pow_succ, ← Nat.mul_assoc]
          exact Nat.mul_div_cancel _ (by decide)
        rw [hdiv]
        exact Nat.succ_le_succ (ih j)

theorem Binary64.roundNat_exact (m : Nat) (j : Nat) (hm : m < 2 ^ 53) :
    Binary64.roundNat (m * 2 ^ j) = m * 2 ^ j := by
  have hs := Binary64.shiftOf_le 2100 m j hm
  have hdvd : 2 ^ Binary64.shiftOf 2100 (m * 2 ^ j) ∣ m * 2 ^ j :=
    Dvd.dvd.mul_left (pow_dvd_pow 2 hs) m
  have hr : m * 2 ^ j % 2 ^ Binary64.shiftOf 2100 (m * 2 ^ j) = 0 := Nat.mod_eq_zero_of_dvd hdvd
  have hpos : 0 < 2 ^ Binary64.shiftOf 2100 (m * 2 ^ j) := pow_pos (by decide) _
  unfold Binary64.roundNat
  simp only [hr, Nat.mul_zero]
  rw [if_neg]
  · exact Nat.div_mul_cancel hdvd
  · rintro (h | ⟨h, _⟩)
    · exact absurd h (Nat.not_lt_zero _)
    · omega

theorem Binary64.round_mul_pow (c : Int) (j : Nat) (hc : c.natAbs < 2 ^ 53) :
    Binary64.round (c * ((2 ^ j : Nat) : Int)) = ⟨c * ((2 ^ j : Nat) : Int)⟩ := by
  have hpos : (0 : Int) < ((2 ^ j : Nat) : Int) := by
    exact_mod_cast (pow_pos (by decide) j : 0 < 2 ^ j)
  have habs : (c * ((2 ^ j : Nat) : Int)).natAbs = c.natAbs * 2 ^ j := by
    rw [Int.natAbs_mul, Int.natAbs_ofNat]
  unfold Binary64.round
  rw [habs, Binary64.roundNat_exact c.natAbs j hc]
  by_cases h0 : 0 ≤ c
  · rw [if_pos (mul_nonneg h0 (le_of_lt hpos))]
    congr 1
    rw [Nat.cast_mul, Int.natAbs_of_nonneg h0]
  · have hneg : c < 0 := not_le.1 h0
    rw [if_neg (not_le.2 (mul_neg_of_neg_of_pos hneg hpos))]
    congr 1
    rw [Nat.cast_mul, Int.ofNat_natAbs_of_nonpos (le_of_lt hneg)]
    rw [neg_mul, neg_neg]

theorem Binary64.round_exact (c : Int) (hc : c.natAbs < 2 ^ 53) :
    Binary64.round (c * ((2 ^ 1074 : Nat) : Int)) = Binary64.ofInt c :=
  Binary64.round_mul_pow c 1074 hc

theorem Binary64.add_ofInt (a b : Int) (h : (a + b).natAbs < 2 ^ 53) :
    Binary64.add (Binary64.ofInt a) (Binary64.ofInt b) = Binary64.ofInt (a + b) := by
  unfold Binary64.add
  simp only [Binary64.ofInt]
  rw [← add_mul]
  exact Binary64.round_mul_pow (a + b) 1074 h

theorem Binary64.sub_ofInt (a b : Int) (h : (a - b).natAbs < 2 ^ 53) :
    Binary64.sub (Binary64.ofInt a) (Binary64.ofInt b) = Binary64.ofInt (a - b) := by
  unfold Binary64.sub
  simp only [Binary64.ofInt]
  rw [← sub_mul]
  exact Binary64.round_mul_pow (a - b) 1074 h
/-- Sums of integers of magnitude below `2 ^ 53` are exact, stated with plain
bounds. -/
theorem Binary64.add_ofInt_of_bounds (a b : Int) (h1 : -9007199254740992 < a + b)
    (h2 : a + b < 9007199254740992) :
    Binary64.add (Binary64.ofInt a) (Binary64.ofInt b) = Binary64.ofInt (a + b) :=
  Binary64.add_ofInt a b (by omega)

/-- Differences of integers of magnitude below `2 ^ 53` are exact, stated with
plain bounds. -/
theorem Binary64.sub_ofInt_of_bounds (a b : Int) (h1 : -9007199254740992 < a - b)
    (h2 : a - b < 9007199254740992) :
    Binary64.sub (Binary64.ofInt a) (Binary64.ofInt b) = Binary64.ofInt (a - b) :=
  Binary64.sub_ofInt a b (by omega)

theorem Binary64.ofInt_units_le (a b : Int) (h : a ≤ b) :
    (Binary64.ofInt a).units ≤ (Binary64.ofInt b).units := by
  have hpos : (0 : Int) ≤ ((2 ^ 1074 : Nat) : Int) := Int.ofNat_nonneg _
  exact mul_le_mul_of_nonneg_right h hpos

/-! ## Clipboard: closed forms of `pasteSelection` and `copySelection` -/

theorem foldl_pasteElement (env : Env) (container : Node) (offsetX offsetY : Binary64)
    (clip : List Node) (s : Controller) (acc : List Node) :
    clip.foldl (pasteElement env container offsetX offsetY) (s, acc) =
      ({ s with nextId := s.nextId + clip.length,
                calls := s.calls ++ pastedCalls container offsetX offsetY
                  (fun _ clone => env.getBoundingBox [clone]) s.nextId clip },
        acc ++ clonesFrom s.nextId clip) := by
  induction clip generalizing s acc with
  | nil => simp [pastedCalls, clonesFrom]
  | cons e es ih =>
    rw [List.foldl_cons]
    simp only [pasteElement, cloneNode, Controller.log]
    rw [ih]
    simp [pastedCalls, clonesFrom, Nat.add_assoc, Nat.add_comm 1]

/-- What `pasteSelection` does, in closed form. -/
theorem pasteSelection_eq (env : Env) (s : Controller) :
    pasteSelection env s =
      { s with
        undoHistory := s.undoHistory ++ [Snapshot.mk s.html s.page],
        redoHistory := [],
        selection := clonesFrom s.nextId s.clipboard,
        nextId := s.nextId + s.clipboard.length,
        calls := s.calls ++ [Call.trackAction "paste", Call.undoCheckPoint] ++
          pastedCalls (pasteContainer env s)
            (pasteOffsetX env s) (pasteOffsetY env s)
            (fun _ clone => env.getBoundingBox [clone]) s.nextId s.clipboard ++
          [Call.setSelection (clonesFrom s.nextId s.clipboard)] } := by
  simp only [pasteSelection, truthy, if_true, undoCheckPoint, Controller.log, setSelection]
  rw [foldl_pasteElement]
  simp [pasteContainer, pasteOffsetX, pasteOffsetY]

theorem clonesFrom_length (n : Nat) (l : List Node) : (clonesFrom n l).length = l.length := by
  induction l generalizing n with
  | nil => rfl
  | cons e es ih => simp [clonesFrom, ih]

theorem clonesFrom_content (n : Nat) (l : List Node) :
    (clonesFrom n l).map (fun x => (x.nodeType, x.type)) =
      l.map (fun x => (x.nodeType, x.type)) := by
  induction l generalizing n with
  | nil => rfl
  | cons e es ih => simp [clonesFrom, ih]

theorem clonesFrom_id_ge (n : Nat) (l : List Node) : ∀ x ∈ clonesFrom n l, n ≤ x.id := by
  induction l generalizing n with
  | nil => simp [clonesFrom]
  | cons e es ih =>
    intro x hx
    simp only [clonesFrom, List.mem_cons] at hx
    rcases hx with hx | hx
    · rw [hx]
    · exact Nat.le_of_succ_le (ih (n + 1) x hx)

theorem clonesFrom_nodup (n : Nat) (l : List Node) : (clonesFrom n l).Nodup := by
  induction l generalizing n with
  | nil => simp [clonesFrom]
  | cons e es ih =>
    simp only [clonesFrom, List.nodup_cons]
    refine ⟨fun h => ?_, ih (n + 1)⟩
    have := clonesFrom_id_ge (n + 1) es _ h
    simp at this

theorem clonesFrom_fresh (n : Nat) (l old : List Node) (hold : ∀ e ∈ old, e.id < n) :
    ∀ x ∈ clonesFrom n l, x ∉ old := by
  intro x hx hxo
  have h1 := clonesFrom_id_ge n l x hx
  have h2 := hold x hxo
  omega

theorem pastedCalls_congr (container : Node) (offsetX offsetY : Binary64)
    (f g : Node → Node → Box) (n : Nat) (l : List Node)
    (h : ∀ e ∈ l, ∀ k, f e { e with id := k } = g e { e with id := k }) :
    pastedCalls container offsetX offsetY f n l = pastedCalls container offsetX offsetY g n l := by
  induction l generalizing n with
  | nil => rfl
  | cons e es ih =>
    simp only [pastedCalls]
    rw [h e (by simp) n, ih (n + 1) (fun x hx k => h x (by simp [hx]) k)]

theorem pastedCalls_addElement (container : Node) (offsetX offsetY : Binary64)
    (f : Node → Node → Box) (n : Nat) (l : List Node) (c el : Node) :
    Call.addElement c el ∈ pastedCalls container offsetX offsetY f n l ↔
      (c = container ∧ el ∈ clonesFrom n l) := by
  induction l generalizing n with
  | nil => simp [pastedCalls, clonesFrom]
  | cons e es ih =>
    simp only [pastedCalls, clonesFrom, List.mem_append, List.mem_cons, ih (n + 1)]
    constructor
    · rintro (h | h)
      · simp at h
        exact ⟨h.1, Or.inl h.2⟩
      · exact ⟨h.1, Or.inr h.2⟩
    · rintro ⟨hc, h | h⟩
      · exact Or.inl (by simp [hc, h])
      · exact Or.inr ⟨hc, h⟩

/-! ## Clipboard: `pasteSelection` -/

set_option exponentiation.threshold 5000 in
set_option maxRecDepth 1000000 in
/-- C13 (as stated) fails on fractional values, the arithmetic being that of
JavaScript numbers. Entries at lefts 0.1 and 0.3 and tops 1624.24, scrolled
down by 76.34: the assumptions of the claim hold, the tops are set to
176.33999999999992 where the anchor `100 + scrollTop` is 176.34, and the
lefts are set to 100 and 100.2, which differ by 0.20000000000000284 where the
entries differ by 0.19999999999999998. -/
theorem paste_positions_counterexample :
    (∀ e ∈ twoCopied.clipboard, ∀ k,
        fractionEnv.getBoundingBox [{ e with id := k }] = fractionEnv.getBoundingBox [e]) ∧
      ((∀ e ∈ twoCopied.clipboard, (fractionEnv.getBoundingBox twoCopied.clipboard).left.units ≤
          (fractionEnv.getBoundingBox [e]).left.units) ∧
        ∃ e ∈ twoCopied.clipboard, (fractionEnv.getBoundingBox [e]).left =
          (fractionEnv.getBoundingBox twoCopied.clipboard).left) ∧
      ((∀ e ∈ twoCopied.clipboard, (fractionEnv.getBoundingBox twoCopied.clipboard).top.units ≤
          (fractionEnv.getBoundingBox [e]).top.units) ∧
        ∃ e ∈ twoCopied.clipboard, (fractionEnv.getBoundingBox [e]).top =
          (fractionEnv.getBoundingBox twoCopied.clipboard).top) ∧
      (pasteSelection fractionEnv twoCopied).calls =
        [Call.trackAction "paste", Call.undoCheckPoint,
          Call.addElement containerNode { id := 9, nodeType := 1, type := some "text" },
          Call.setStyleLeft { id := 9, nodeType := 1, type := some "text" }
            (Binary64.ofInt 100),
          Call.setStyleTop { id := 9, nodeType := 1, type := some "text" }
            (Binary64.ofMantissa 6204412174144632 (-45)),
          Call.doAddElement { id := 9, nodeType := 1, type := some "text" },
          Call.addElement containerNode { id := 10, nodeType := 1, type := some "image" },
          Call.setStyleLeft { id := 10, nodeType := 1, type := some "image" }
            (Binary64.ofMantissa 7050948166601933 (-46)),
          Call.setStyleTop { id := 10, nodeType := 1, type := some "image" }
            (Binary64.ofMantissa 6204412174144632 (-45)),
          Call.doAddElement { id := 10, nodeType := 1, type := some "image" },
          Call.setSelection [{ id := 9, nodeType := 1, type := some "text" },
            { id := 10, nodeType := 1, type := some "image" }]] ∧
      Binary64.add (Binary64.ofInt 100) fractionEnv.scrollTop =
        Binary64.ofMantissa 6204412174144635 (-45) ∧
      (∀ e ∈ twoCopied.clipboard, pastedTop fractionEnv twoCopied e ≠
        Binary64.add (Binary64.ofInt 100) fractionEnv.scrollTop) ∧
      Binary64.sub (Binary64.ofMantissa 7050948166601933 (-46)) (Binary64.ofInt 100) =
        Binary64.ofMantissa 7205759403792896 (-55) ∧
      Binary64.sub (fractionLeft { id := 8, nodeType := 1, type := some "image" })
          (fractionLeft { id := 7, nodeType := 1, type := some "text" }) =
        Binary64.ofMantissa 7205759403792793 (-55) ∧
      (Binary64.ofMantissa 7050948166601933 (-46)).units - (Binary64.ofInt 100).units ≠
        (fractionLeft { id := 8, nodeType := 1, type := some "image" }).units -
          (fractionLeft { id := 7, nodeType := 1, type := some "text" }).units := by
  refine ⟨?_, by decide, by decide, by decide, by decide, by decide, by decide, by decide,
    by decide⟩
  intro e he k
  simp only [twoCopied, List.mem_cons, List.mem_singleton, List.not_mem_nil, or_false] at he
  rcases he with he | he <;> rw [he] <;> rfl

/-- C13 (amended): when the boxes of the clipboard entries and the scroll
offset are whole pixels of magnitude at most `2 ^ 50`, the bounding box of
every clone is that of its clipboard entry and the left and top of the
combined box are the least left and top of the entries, `pasteSelection()`
sets the clone of each entry to `left = left_i + (100 + scrollLeft - min left)`
and `top = top_i + (100 + scrollTop - min top)`, without rounding; so the
least left and top set are the anchor `100 + scrollLeft`, `100 + scrollTop`,
and the differences of position between pasted elements are those between
their clipboard entries. -/
theorem paste_positions (env : Env) (s : Controller) (leftPx topPx : Node → Int)
    (minLeft minTop scrollX scrollY : Int)
    (hclone : ∀ e ∈ s.clipboard, ∀ k,
      env.getBoundingBox [{ e with id := k }] = env.getBoundingBox [e])
    (hbox : ∀ e ∈ s.clipboard,
      (env.getBoundingBox [e]).left = Binary64.ofInt (leftPx e) ∧
        (env.getBoundingBox [e]).top = Binary64.ofInt (topPx e) ∧
        -1125899906842624 ≤ leftPx e ∧ leftPx e ≤ 1125899906842624 ∧
        -1125899906842624 ≤ topPx e ∧ topPx e ≤ 1125899906842624)
    (hscroll : env.scrollLeft = Binary64.ofInt scrollX ∧
      env.scrollTop = Binary64.ofInt scrollY ∧
      -1125899906842624 ≤ scrollX ∧ scrollX ≤ 1125899906842624 ∧
      -1125899906842624 ≤ scrollY ∧ scrollY ≤ 1125899906842624)
    (hbb : (env.getBoundingBox s.clipboard).left = Binary64.ofInt minLeft ∧
      (env.getBoundingBox s.clipboard).top = Binary64.ofInt minTop)
    (hleft : (∀ e ∈ s.clipboard, minLeft ≤ leftPx e) ∧ ∃ e ∈ s.clipboard, leftPx e = minLeft)
    (htop : (∀ e ∈ s.clipboard, minTop ≤ topPx e) ∧ ∃ e ∈ s.clipboard, topPx e = minTop) :
    (pasteSelection env s).calls =
        s.calls ++ [Call.trackAction "paste", Call.undoCheckPoint] ++
          pastedCalls (pasteContainer env s) (pasteOffsetX env s) (pasteOffsetY env s)
            (fun entry _ => env.getBoundingBox [entry]) s.nextId s.clipboard ++
          [Call.setSelection (clonesFrom s.nextId s.clipboard)] ∧
      (∀ e ∈ s.clipboard,
        pastedLeft env s e = Binary64.ofInt (leftPx e + (100 + scrollX - minLeft)) ∧
          pastedTop env s e = Binary64.ofInt (topPx e + (100 + scrollY - minTop))) ∧
      ((∀ e ∈ s.clipboard,
          (Binary64.add (Binary64.ofInt 100) env.scrollLeft).units ≤
            (pastedLeft env s e).units) ∧
        ∃ e ∈ s.clipboard,
          pastedLeft env s e = Binary64.add (Binary64.ofInt 100) env.scrollLeft) ∧
      ((∀ e ∈ s.clipboard,
          (Binary64.add (Binary64.ofInt 100) env.scrollTop).units ≤
            (pastedTop env s e).units) ∧
        ∃ e ∈ s.clipboard,
          pastedTop env s e = Binary64.add (Binary64.ofInt 100) env.scrollTop) ∧
      ∀ e1 ∈ s.clipboard, ∀ e2 ∈ s.clipboard,
        Binary64.sub (pastedLeft env s e1) (pastedLeft env s e2) =
            Binary64.sub (env.getBoundingBox [e1]).left (env.getBoundingBox [e2]).left ∧
          Binary64.sub (pastedTop env s e1) (pastedTop env s e2) =
            Binary64.sub (env.getBoundingBox [e1]).top (env.getBoundingBox [e2]).top ∧
          (pastedLeft env s e1).units - (pastedLeft env s e2).units =
            (env.getBoundingBox [e1]).left.units - (env.getBoundingBox [e2]).left.units ∧
          (pastedTop env s e1).units - (pastedTop env s e2).units =
            (env.getBoundingBox [e1]).top.units - (env.getBoundingBox [e2]).top.units := by
  obtain ⟨hsl, hst, hsx1, hsx2, hsy1, hsy2⟩ := hscroll
  obtain ⟨hbl, hbt⟩ := hbb
  obtain ⟨eL, heL, hminL⟩ := hleft.2
  obtain ⟨eT, heT, hminT⟩ := htop.2
  obtain ⟨_, _, hL1, hL2, _, _⟩ := hbox eL heL
  obtain ⟨_, _, _, _, hT1, hT2⟩ := hbox eT heT
  have hanchorX : Binary64.add (Binary64.ofInt 100) env.scrollLeft =
      Binary64.ofInt (100 + scrollX) := by
    rw [hsl]
    exact Binary64.add_ofInt_of_bounds 100 scrollX (by omega) (by omega)
  have hanchorY : Binary64.add (Binary64.ofInt 100) env.scrollTop =
      Binary64.ofInt (100 + scrollY) := by
    rw [hst]
    exact Binary64.add_ofInt_of_bounds 100 scrollY (by omega) (by omega)
  have hoffX : pasteOffsetX env s = Binary64.ofInt (100 + scrollX - minLeft) := by
    unfold pasteOffsetX
    rw [hanchorX, hbl]
    exact Binary64.sub_ofInt_of_bounds (100 + scrollX) minLeft (by omega) (by omega)
  have hoffY : pasteOffsetY env s = Binary64.ofInt (100 + scrollY - minTop) := by
    unfold pasteOffsetY
    rw [hanchorY, hbt]
    exact Binary64.sub_ofInt_of_bounds (100 + scrollY) minTop (by omega) (by omega)
  have hset : ∀ e ∈ s.clipboard,
      pastedLeft env s e = Binary64.ofInt (leftPx e + (100 + scrollX - minLeft)) ∧
        pastedTop env s e = Binary64.ofInt (topPx e + (100 + scrollY - minTop)) := by
    intro e he
    obtain ⟨hl, ht, hl1, hl2, ht1, ht2⟩ := hbox e he
    unfold pastedLeft pastedTop
    rw [hoffX, hoffY, hl, ht]
    exact ⟨Binary64.add_ofInt_of_bounds _ _ (by omega) (by omega),
      Binary64.add_ofInt_of_bounds _ _ (by omega) (by omega)⟩
  refine ⟨?_, hset, ⟨?_, ?_⟩, ⟨?_, ?_⟩, ?_⟩
  · rw [pasteSelection_eq]
    simp only
    rw [pastedCalls_congr _ _ _ (fun _ clone => env.getBoundingBox [clone])
      (fun entry _ => env.getBoundingBox [entry]) _ _ hclone]
  · intro e he
    rw [hanchorX, (hset e he).1]
    have := hleft.1 e he
    exact Binary64.ofInt_units_le _ _ (by omega)
  · refine ⟨eL, heL, ?_⟩
    rw [hanchorX, (hset eL heL).1]
    congr 1
    omega
  · intro e he
    rw [hanchorY, (hset e he).2]
    have := htop.1 e he
    exact Binary64.ofInt_units_le _ _ (by omega)
  · refine ⟨eT, heT, ?_⟩
    rw [hanchorY, (hset eT heT).2]
    congr 1
    omega
  · intro e1 he1 e2 he2
    obtain ⟨hl1, ht1, a1, a2, a3, a4⟩ := hbox e1 he1
    obtain ⟨hl2, ht2, b1, b2, b3, b4⟩ := hbox e2 he2
    rw [(hset e1 he1).1, (hset e1 he1).2, (hset e2 he2).1, (hset e2 he2).2, hl1, hl2, ht1, ht2]
    refine ⟨?_, ?_, ?_, ?_⟩
    · rw [Binary64.sub_ofInt_of_bounds _ _ (by omega) (by omega),
        Binary64.sub_ofInt_of_bounds _ _ (by omega) (by omega)]
      congr 1
      omega
    · rw [Binary64.sub_ofInt_of_bounds _ _ (by omega) (by omega),
        Binary64.sub_ofInt_of_bounds _ _ (by omega) (by omega)]
      congr 1
      omega
    · simp only [Binary64.ofInt]
      rw [← sub_mul, ← sub_mul]
      congr 1
      omega
    · simp only [Binary64.ofInt]
      rw [← sub_mul, ← sub_mul]
      congr 1
      omega

set_option exponentiation.threshold 5000 in
set_option maxRecDepth 1000000 in
/-- Witness of C13 (amended): a text element at (30, 40) and an image at
(50, 20) in the clipboard, the document scrolled by (5, 7); the clones are set
to (105, 127) and (125, 107). -/
theorem paste_positions_witness :
    (pasteSelection layoutEnv twoCopied).calls =
        [Call.trackAction "paste", Call.undoCheckPoint,
          Call.addElement containerNode { id := 9, nodeType := 1, type := some "text" },
          Call.setStyleLeft { id := 9, nodeType := 1, type := some "text" }
            (Binary64.ofInt 105),
          Call.setStyleTop { id := 9, nodeType := 1, type := some "text" }
            (Binary64.ofInt 127),
          Call.doAddElement { id := 9, nodeType := 1, type := some "text" },
          Call.addElement containerNode { id := 10, nodeType := 1, type := some "image" },
          Call.setStyleLeft { id := 10, nodeType := 1, type := some "image" }
            (Binary64.ofInt 125),
          Call.setStyleTop { id := 10, nodeType := 1, type := some "image" }
            (Binary64.ofInt 107),
          Call.doAddElement { id := 10, nodeType := 1, type := some "image" },
          Call.setSelection [{ id := 9, nodeType := 1, type := some "text" },
            { id := 10, nodeType := 1, type := some "image" }]] ∧
      pastedLeft layoutEnv twoCopied { id := 7, nodeType := 1, type := some "text" } =
        Binary64.ofInt 105 ∧
      pastedTop layoutEnv twoCopied { id := 8, nodeType := 1, type := some "image" } =
        Binary64.ofInt 107 :=
  ⟨(paste_positions layoutEnv twoCopied layoutLeft layoutTop 30 20 5 7
      (by
        intro e he k
        simp only [twoCopied, List.mem_cons, List.mem_singleton, List.not_mem_nil,
          or_false] at he
        rcases he with he | he <;> rw [he] <;> rfl)
      (by decide) (by decide) (by decide) (by decide) (by decide)).1,
    ((paste_positions layoutEnv twoCopied layoutLeft layoutTop 30 20 5 7
      (by
        intro e he k
        simp only [twoCopied, List.mem_cons, List.mem_singleton, List.not_mem_nil,
          or_false] at he
        rcases he with he | he <;> rw [he] <;> rfl)
      (by decide) (by decide) (by decide) (by decide) (by decide)).2.1
        { id := 7, nodeType := 1, type := some "text" } (by decide)).1,
    ((paste_positions layoutEnv twoCopied layoutLeft layoutTop 30 20 5 7
      (by
        intro e he k
        simp only [twoCopied, List.mem_cons, List.mem_singleton, List.not_mem_nil,
          or_false] at he
        rcases he with he | he <;> rw [he] <;> rfl)
      (by decide) (by decide) (by decide) (by decide) (by decide)).2.1
        { id := 8, nodeType := 1, type := some "image" } (by decide)).2⟩

theorem pastedCalls_added (container : Node) (offsetX offsetY : Binary64)
    (f : Node → Node → Box) (n : Nat) (l : List Node) :
    (pastedCalls container offsetX offsetY f n l).filterMap Call.added =
      (clonesFrom n l).map (fun el => (container, el)) := by
  induction l generalizing n with
  | nil => rfl
  | cons e es ih =>
    simp only [pastedCalls, clonesFrom, List.filterMap_append, ih (n + 1), List.map_cons]
    simp [List.filterMap_cons, Call.added]

/-- C14: the container of `pasteSelection()` is `clipboardParent` when that is
set, contained in the body and visible on the stage; failing that it is the
background container when there is one, and the body element when there is
none. The paste makes one `addElement` call for each clipboard entry, in
clipboard order, each adding the clone of that entry to that container, and
no other `addElement` call. -/
theorem paste_container (env : Env) (s : Controller) :
    (∀ p, s.clipboardParent = some p → env.contains env.bodyElement p = true →
        env.getVisibility p = true → pasteContainer env s = p) ∧
      ((s.clipboardParent = none ∨
          ∃ p, s.clipboardParent = some p ∧
            (env.contains env.bodyElement p = false ∨ env.getVisibility p = false)) →
        (∀ b, env.backgroundContainer = some b → pasteContainer env s = b) ∧
          (env.backgroundContainer = none → pasteContainer env s = env.bodyElement)) ∧
      ∃ new, (pasteSelection env s).calls = s.calls ++ new ∧
        new.filterMap Call.added =
          (clonesFrom s.nextId s.clipboard).map (fun el => (pasteContainer env s, el)) ∧
        (new.filterMap Call.added).length = s.clipboard.length ∧
        (∀ c el, Call.addElement c el ∈ new → c = pasteContainer env s) ∧
        ∀ el ∈ clonesFrom s.nextId s.clipboard,
          Call.addElement (pasteContainer env s) el ∈ new := by
  refine ⟨?_, ?_, ?_⟩
  · intro p hp hc hv
    simp [pasteContainer, hp, hc, hv]
  · intro h
    rcases h with h | ⟨p, hp, hcv⟩
    · constructor
      · intro b hb
        simp [pasteContainer, h, hb]
      · intro hb
        simp [pasteContainer, h, hb]
    · constructor
      · intro b hb
        rcases hcv with hcv | hcv <;> simp [pasteContainer, hp, hb, hcv]
      · intro hb
        rcases hcv with hcv | hcv <;> simp [pasteContainer, hp, hb, hcv]
  · rw [pasteSelection_eq]
    have hadded : (([Call.trackAction "paste", Call.undoCheckPoint] ++
        pastedCalls (pasteContainer env s) (pasteOffsetX env s) (pasteOffsetY env s)
          (fun _ clone => env.getBoundingBox [clone]) s.nextId s.clipboard) ++
        [Call.setSelection (clonesFrom s.nextId s.clipboard)]).filterMap Call.added =
        (clonesFrom s.nextId s.clipboard).map (fun el => (pasteContainer env s, el)) := by
      rw [List.filterMap_append, List.filterMap_append, pastedCalls_added]
      simp [List.filterMap_cons, Call.added]
    refine ⟨([Call.trackAction "paste", Call.undoCheckPoint] ++
        pastedCalls (pasteContainer env s) (pasteOffsetX env s) (pasteOffsetY env s)
          (fun _ clone => env.getBoundingBox [clone]) s.nextId s.clipboard) ++
        [Call.setSelection (clonesFrom s.nextId s.clipboard)],
      by simp only [List.append_assoc], hadded, ?_, ?_, ?_⟩
    · rw [hadded, List.length_map, clonesFrom_length]
    · intro c el h
      simp only [List.mem_append, List.mem_cons, List.mem_singleton, List.not_mem_nil,
        or_false] at h
      rcases h with (h | h) | h
      · rcases h with h | h <;> exact Call.noConfusion h
      · exact ((pastedCalls_addElement _ _ _ _ _ _ c el).1 h).1
      · exact Call.noConfusion h
    · intro el hel
      simp only [List.mem_append]
      exact Or.inl (Or.inr ((pastedCalls_addElement _ _ _ _ _ _ _ el).2 ⟨rfl, hel⟩))

/-- Witness of C14: the container the clipboard was copied from is attached
and visible, so it is the container of the paste, and the clones of the two
clipboard entries are added to it, in order. -/
theorem paste_container_witness :
    pasteContainer layoutEnv twoCopied = containerNode ∧
      ∃ new, (pasteSelection layoutEnv twoCopied).calls = twoCopied.calls ++ new ∧
        new.filterMap Call.added =
          [(containerNode, { id := 9, nodeType := 1, type := some "text" }),
            (containerNode, { id := 10, nodeType := 1, type := some "image" })] :=
  ⟨(paste_container layoutEnv twoCopied).1 containerNode rfl rfl rfl,
    (paste_container layoutEnv twoCopied).2.2.imp (fun _ h => ⟨h.1, h.2.1⟩)⟩

/-- C15: `pasteSelection()` leaves the clipboard and `clipboardParent` as they
were, and replaces the selection with the clones it inserted, one for each
clipboard entry in clipboard order, each with the content of its entry and a
fresh identity, so none is itself a clipboard entry. -/
theorem paste_selects_clones (env : Env) (s : Controller)
    (hfresh : ∀ e ∈ s.clipboard, e.id < s.nextId) :
    (pasteSelection env s).clipboard = s.clipboard ∧
      (pasteSelection env s).clipboardParent = s.clipboardParent ∧
      (pasteSelection env s).selection = clonesFrom s.nextId s.clipboard ∧
      (pasteSelection env s).calls.getLast? =
        some (Call.setSelection (pasteSelection env s).selection) ∧
      (pasteSelection env s).selection.length = s.clipboard.length ∧
      (pasteSelection env s).selection.map (fun x => (x.nodeType, x.type)) =
        s.clipboard.map (fun x => (x.nodeType, x.type)) ∧
      (pasteSelection env s).selection.Nodup ∧
      (∀ x ∈ (pasteSelection env s).selection, x ∉ s.clipboard) ∧
      ∃ new, (pasteSelection env s).calls = s.calls ++ new ∧
        ∀ el, el ∈ (pasteSelection env s).selection ↔ ∃ c, Call.addElement c el ∈ new := by
  rw [pasteSelection_eq]
  refine ⟨rfl, rfl, rfl, List.getLast?_concat _, clonesFrom_length _ _, clonesFrom_content _ _,
    clonesFrom_nodup _ _, clonesFrom_fresh _ _ _ hfresh, ?_⟩
  refine ⟨([Call.trackAction "paste", Call.undoCheckPoint] ++
      pastedCalls (pasteContainer env s)
        (pasteOffsetX env s) (pasteOffsetY env s)
        (fun _ clone => env.getBoundingBox [clone]) s.nextId s.clipboard) ++
      [Call.setSelection (clonesFrom s.nextId s.clipboard)],
    by simp only [List.append_assoc], ?_⟩
  intro el
  constructor
  · intro hel
    refine ⟨pasteContainer env s, ?_⟩
    simp only [List.mem_append]
    exact Or.inl (Or.inr ((pastedCalls_addElement _ _ _ _ _ _ _ el).2 ⟨rfl, hel⟩))
  · rintro ⟨c, h⟩
    simp only [List.mem_append, List.mem_cons, List.mem_singleton, List.not_mem_nil,
      or_false] at h
    rcases h with (h | h) | h
    · rcases h with h | h <;> exact Call.noConfusion h
    · exact ((pastedCalls_addElement _ _ _ _ _ _ c el).1 h).2
    · exact Call.noConfusion h

/-- Witness of C15: two clipboard entries with identities 7 and 8, the next
free identity being 9. -/
theorem paste_selects_clones_witness :
    (pasteSelection layoutEnv twoCopied).clipboard = twoCopied.clipboard ∧
      (pasteSelection layoutEnv twoCopied).clipboardParent = twoCopied.clipboardParent ∧
      (pasteSelection layoutEnv twoCopied).selection =
        [{ id := 9, nodeType := 1, type := some "text" },
          { id := 10, nodeType := 1, type := some "image" }] :=
  ⟨(paste_selects_clones layoutEnv twoCopied (by decide)).1,
    (paste_selects_clones layoutEnv twoCopied (by decide)).2.1,
    (paste_selects_clones layoutEnv twoCopied (by decide)).2.2.1⟩

/-! ## Clipboard: `copySelection` -/

theorem foldl_copyElement (env : Env) (l : List Node) (s : Controller) :
    (l.foldl (copyElement env) s).clipboard =
        s.clipboard ++
          clonesFrom s.nextId (l.filter (fun e => decide (env.bodyElement ≠ e))) ∧
      (l.foldl (copyElement env) s).nextId =
        s.nextId + (l.filter (fun e => decide (env.bodyElement ≠ e))).length ∧
      (l.foldl (copyElement env) s).calls = s.calls ++ copiedCalls env.bodyElement l := by
  induction l generalizing s with
  | nil => simp [clonesFrom, copiedCalls]
  | cons e es ih =>
    rw [List.foldl_cons]
    obtain ⟨h1, h2, h3⟩ := ih (copyElement env s e)
    rw [h1, h2, h3]
    by_cases hb : env.bodyElement = e
    · simp [copyElement, hb, Controller.log, copiedCalls]
    · simp [copyElement, hb, Controller.log, copiedCalls, cloneNode, clonesFrom,
        Nat.add_assoc, Nat.add_comm 1]

theorem editableFrom_append (init : Option Bool) (a b : List Call) (e : Node) :
    editableFrom init (a ++ b) e = editableFrom (editableFrom init a e) b e := by
  simp [editableFrom, List.foldl_append]

theorem editableFrom_copiedCalls_of_not_mem (body e : Node) (l : List Node)
    (init : Option Bool) (he : e ∉ l) :
    editableFrom init (copiedCalls body l) e = init := by
  induction l generalizing init with
  | nil => simp [copiedCalls, editableFrom]
  | cons y ys ih =>
    have hye : y ≠ e := fun h => he (by simp [h])
    have hys : e ∉ ys := fun h => he (by simp [h])
    simp only [copiedCalls]
    rw [editableFrom_append, ih _ hys]
    by_cases hby : body = y
    · simp [hby, editableFrom]
    · simp [hby, editableFrom, hye]

/-- After the `forEach` of `copySelection` every element of the selection
other than the body is editable, whatever it was before. -/
theorem editableFrom_copiedCalls (body e : Node) (l : List Node) (init : Option Bool)
    (he : e ∈ l) (hb : body ≠ e) :
    editableFrom init (copiedCalls body l) e = some true := by
  induction l generalizing init with
  | nil => simp at he
  | cons x xs ih =>
    simp only [copiedCalls]
    rw [editableFrom_append]
    by_cases hxe : x = e
    · subst hxe
      have hstep : editableFrom init
          (if body ≠ x then [Call.setEditable x false, Call.setEditable x true]
            else [Call.consoleError x]) x = some true := by
        simp [hb, editableFrom]
      rw [hstep]
      by_cases hxs : x ∈ xs
      · exact ih (some true) hxs
      · exact editableFrom_copiedCalls_of_not_mem body x xs (some true) hxs
    · have hxs : e ∈ xs := by
        rcases List.mem_cons.1 he with h | h
        · exact absurd h.symm hxe
        · exact h
      exact ih _ hxs

/-- What `copySelection` does on a non-empty selection, field by field. -/
theorem copySelection_of_selection (env : Env) (s : Controller) (hsel : s.selection ≠ []) :
    (copySelection env s).clipboard =
        clonesFrom s.nextId (s.selection.filter (fun e => decide (env.bodyElement ≠ e))) ∧
      (copySelection env s).calls =
        s.calls ++ [Call.trackAction "copy", Call.getSelection] ++
          copiedCalls env.bodyElement s.selection := by
  have hlen : s.selection.length > 0 := List.length_pos.2 hsel
  simp only [copySelection, getSelection, Controller.log, hlen, if_true]
  obtain ⟨h1, _, h3⟩ := foldl_copyElement env s.selection
    { s with calls := s.calls ++ [Call.trackAction "copy"] ++ [Call.getSelection],
             clipboard := [] }
  constructor
  · simpa using h1
  · simpa using h3

/-- C16: on a non-empty selection, whatever the clipboard held,
`copySelection()` leaves in the clipboard one clone for each selected element
other than the body, in selection order, each with the content of its source
and a fresh identity, so no earlier entry is kept; and every copied source
element is left editable. -/
theorem copy_replaces_clipboard (env : Env) (s : Controller) (hsel : s.selection ≠ [])
    (hfresh : ∀ e ∈ s.clipboard, e.id < s.nextId) :
    (copySelection env s).clipboard =
        clonesFrom s.nextId (s.selection.filter (fun e => decide (env.bodyElement ≠ e))) ∧
      (copySelection env s).clipboard.length =
        (s.selection.filter (fun e => decide (env.bodyElement ≠ e))).length ∧
      (copySelection env s).clipboard.map (fun x => (x.nodeType, x.type)) =
        (s.selection.filter (fun e => decide (env.bodyElement ≠ e))).map
          (fun x => (x.nodeType, x.type)) ∧
      (∀ x ∈ (copySelection env s).clipboard, x ∉ s.clipboard) ∧
      ∀ e ∈ s.selection, env.bodyElement ≠ e →
        editableAfter (copySelection env s).calls e = some true := by
  obtain ⟨hclip, hcalls⟩ := copySelection_of_selection env s hsel
  rw [hclip, hcalls]
  refine ⟨rfl, clonesFrom_length _ _, clonesFrom_content _ _,
    clonesFrom_fresh _ _ _ hfresh, ?_⟩
  intro e he hb
  unfold editableAfter
  rw [editableFrom_append]
  exact editableFrom_copiedCalls env.bodyElement e s.selection _ he hb

/-- Witness of C16: a text element, the body and an image selected, an older
entry in the clipboard. -/
theorem copy_replaces_clipboard_witness :
    (copySelection layoutEnv twoSelected).clipboard =
        [{ id := 9, nodeType := 1, type := some "text" },
          { id := 10, nodeType := 1, type := some "image" }] ∧
      editableAfter (copySelection layoutEnv twoSelected).calls
        { id := 6, nodeType := 1, type := some "image" } = some true :=
  ⟨(copy_replaces_clipboard layoutEnv twoSelected (by decide) (by decide)).1,
    (copy_replaces_clipboard layoutEnv twoSelected (by decide) (by decide)).2.2.2.2
      { id := 6, nodeType := 1, type := some "image" } (by decide) (by decide)⟩

/-- C18: with an empty selection `copySelection()` only tracks the action and
reads the selection: the clipboard and `clipboardParent` are as they were and
`setEditable` is called on no element. -/
theorem copy_empty_selection (env : Env) (s : Controller) (hsel : s.selection = []) :
    (copySelection env s).clipboard = s.clipboard ∧
      (copySelection env s).clipboardParent = s.clipboardParent ∧
      (copySelection env s).calls = s.calls ++ [Call.trackAction "copy", Call.getSelection] ∧
      copySelection env s =
        { s with calls := s.calls ++ [Call.trackAction "copy", Call.getSelection] } := by
  simp [copySelection, getSelection, Controller.log, hsel]

/-- Witness of C18: nothing selected, one entry in the clipboard. -/
theorem copy_empty_selection_witness :
    nothingSelected.selection = [] ∧
      (copySelection layoutEnv nothingSelected).clipboard = nothingSelected.clipboard ∧
      (copySelection layoutEnv nothingSelected).clipboardParent =
        nothingSelected.clipboardParent ∧
      (copySelection layoutEnv nothingSelected).calls =
        nothingSelected.calls ++ [Call.trackAction "copy", Call.getSelection] ∧
      copySelection layoutEnv nothingSelected =
        { nothingSelected with
          calls := nothingSelected.calls ++ [Call.trackAction "copy", Call.getSelection] } :=
  ⟨rfl, copy_empty_selection layoutEnv nothingSelected rfl⟩

/-! ## Removal -/

theorem foldl_removeElement (l : List Node) (s : Controller) :
    l.foldl (fun t element => t.log (Call.removeElement element)) s =
      { s with calls := s.calls ++ l.map Call.removeElement } := by
  induction l generalizing s with
  | nil => simp
  | cons e es ih =>
    rw [List.foldl_cons, ih]
    simp [Controller.log]

/-- C17: when the user declines the prompt of `removeSelectedElements()`,
nothing but the record of calls changes: no checkpoint is taken and no
element is removed. When the user accepts, a checkpoint is taken and then
`removeElement` is called on the elements that were selected when the command
was issued, each once, in selection order. -/
theorem remove_after_confirmation (s : Controller) :
    removeSelectedElements false s =
        { s with calls := s.calls ++ [Call.getSelection, Call.confirm
          "I am about to <strong>delete the selected element(s)</strong>, are you sure?"] } ∧
      (removeSelectedElements false s).undoHistory = s.undoHistory ∧
      (removeSelectedElements false s).redoHistory = s.redoHistory ∧
      (∀ e, Call.removeElement e ∉ (removeSelectedElements false s).calls.drop s.calls.length) ∧
      Call.undoCheckPoint ∉ (removeSelectedElements false s).calls.drop s.calls.length ∧
      (removeSelectedElements true s).calls =
        s.calls ++ [Call.getSelection, Call.confirm
          "I am about to <strong>delete the selected element(s)</strong>, are you sure?",
          Call.undoCheckPoint] ++ s.selection.map Call.removeElement ∧
      (removeSelectedElements true s).undoHistory =
        s.undoHistory ++ [Snapshot.mk s.html s.page] := by
  have hfalse : removeSelectedElements false s =
      { s with calls := s.calls ++ [Call.getSelection, Call.confirm
        "I am about to <strong>delete the selected element(s)</strong>, are you sure?"] } := by
    simp [removeSelectedElements, getSelection, Controller.log]
  refine ⟨hfalse, ?_, ?_, ?_, ?_, ?_, ?_⟩
  · rw [hfalse]
  · rw [hfalse]
  · intro e
    rw [hfalse]
    simp
  · rw [hfalse]
    simp
  · simp only [removeSelectedElements, getSelection, if_true]
    rw [foldl_removeElement]
    simp [undoCheckPoint, Controller.log]
  · simp only [removeSelectedElements, getSelection, if_true]
    rw [foldl_removeElement]
    simp [undoCheckPoint, Controller.log]

end Silex
